import Mathlib

/-!
# Verification of `custom_structures::Dictionary` and `custom_structures::TreeStructure`

The first part is a shallow embedding of the `Dictionary` class
(source/include/dictionary.h); the embedding of `TreeStructure`
(source/include/tree_structure.h) follows it, with its own introduction.  The two private members
`m_keys` and `m_values` become the fields of a structure, every member
function becomes a function on that structure, and a mutating member returns
the new state.

* `std::vector` is a `List`; `std::string` is `String`.
* The C++ `int` results are `Int`.  The casts `int(it - m_keys.begin())` and
  `(int)v.size()` are taken to be exact, that is, the containers are assumed
  to hold fewer than `2^31` elements.
* A member function that can leave its body other than by a normal return has
  result type `Except Fault _`: `std::vector::at` throws `std::out_of_range`,
  and two paths of the source have no defined behaviour at all (`value` on an
  absent key ends without a `return`; `erase` with an iterator at or past the
  end).  An exception leaves the function, so the state at the throw is not
  part of the result.
-/

namespace custom_structures

/-- Ways in which a member function can fail to return normally. -/
inductive Fault where
  /-- `std::vector::at` was called with an index that is not below `size()`. -/
  | out_of_range
  /-- the source has no defined behaviour on this path -/
  | undefined_behaviour
  deriving DecidableEq, Repr

/-- The class `Dictionary`: its two private data members. -/
structure Dictionary where
  /-- vector with keys -/
  m_keys : List String
  /-- vector with value(s) assigned to a key, one list per key -/
  m_values : List (List String)
  deriving DecidableEq, Repr

/-- `std::find(v.begin(), v.end(), key) - v.begin()`: the offset of the first
element equal to `key`, and `v.size()` (the offset of `end()`) when there is
none. -/
def find : List String → String → Nat
  | [], _ => 0
  | x :: xs, key => if x = key then 0 else find xs key + 1

/-- `v.at(idx)` for reading, `idx` being an `int` converted to `size_t`: a
negative `idx` converts to a value above every possible size. -/
def vec_at {α : Type} (v : List α) (idx : Int) : Except Fault α :=
  if idx < 0 then .error .out_of_range
  else match v[idx.toNat]? with
    | some x => .ok x
    | none => .error .out_of_range

/-- `v.at(idx)` used as an lvalue: the element at `idx` is replaced by `f` of
it (`push_back` on it, or assignment to it). -/
def vec_at_update {α : Type} (v : List α) (idx : Int) (f : α → α) : Except Fault (List α) :=
  match vec_at v idx with
  | .ok x => .ok (v.set idx.toNat (f x))
  | .error e => .error e

/-- `v.erase(v.begin() + idx)` for `idx >= 0`; the iterator must point at an
element. -/
def vec_erase {α : Type} (v : List α) (idx : Int) : Except Fault (List α) :=
  if idx.toNat < v.length then .ok (v.eraseIdx idx.toNat) else .error .undefined_behaviour

namespace Dictionary

/-- `Dictionary() {}` -/
def empty : Dictionary := ⟨[], []⟩

/-- `int contains(std::string key) const` -/
def contains (d : Dictionary) (key : String) : Int :=
  let it := find d.m_keys key
  if it = d.m_keys.length then -1 else (it : Int)

/-- `int size()` -/
def size (d : Dictionary) : Int := (d.m_keys.length : Int)

/-- `int size(std::string key)` -/
def size_key (d : Dictionary) (key : String) : Except Fault Int :=
  let idx := d.contains key
  if idx < 0 then .ok (-1)
  else match vec_at d.m_values idx with
    | .ok value_list => .ok (value_list.length : Int)
    | .error e => .error e

/-- `void insert(std::string key, std::string value)` -/
def insert (d : Dictionary) (key value : String) : Except Fault Dictionary :=
  let idx := d.contains key
  if idx < 0 then
    .ok ⟨d.m_keys ++ [key], d.m_values ++ [[value]]⟩
  else match vec_at_update d.m_values idx (fun value_list => value_list ++ [value]) with
    | .ok vs => .ok ⟨d.m_keys, vs⟩
    | .error e => .error e

/-- `void remove(std::string key)` -/
def remove (d : Dictionary) (key : String) : Except Fault Dictionary :=
  let idx := d.contains key
  if idx ≥ 0 then
    match vec_erase d.m_keys idx, vec_erase d.m_values idx with
    | .ok ks, .ok vs => .ok ⟨ks, vs⟩
    | .error e, _ => .error e
    | _, .error e => .error e
  else .ok d

/-- `void replace(std::string key, std::string value)` -/
def replace (d : Dictionary) (key value : String) : Except Fault Dictionary :=
  let idx := d.contains key
  if idx ≥ 0 then
    match vec_at_update d.m_values idx (fun _ => [value]) with
    | .ok vs => .ok ⟨d.m_keys, vs⟩
    | .error e => .error e
  else .ok d

/-- `std::vector<std::string> keys() const` -/
def keys (d : Dictionary) : List String := d.m_keys

/-- `std::vector<std::vector<std::string>> values() const` -/
def values (d : Dictionary) : List (List String) := d.m_values

/-- `std::vector<std::string> value(std::string key) const`: when the key is
absent the body ends without a `return`. -/
def value (d : Dictionary) (key : String) : Except Fault (List String) :=
  let idx := d.contains key
  if idx ≥ 0 then vec_at d.m_values idx
  else .error .undefined_behaviour

/-- The inner loop of `insert(const Dictionary*)`:
`for (auto value : value_list) this->insert(key, value);` -/
def insert_all (d : Dictionary) (key : String) : List String → Except Fault Dictionary
  | [] => .ok d
  | value :: rest =>
    match d.insert key value with
    | .ok d1 => insert_all d1 key rest
    | .error e => .error e

/-- One iteration of the outer loop of `insert(const Dictionary*)`, for a
`source` that is a different object from `this`. -/
def insert_dictionary_step (d source : Dictionary) (key : String) : Except Fault Dictionary :=
  let idx := d.contains key
  match (if idx < 0 then d.remove key else .ok d) with
  | .error e => .error e
  | .ok d1 =>
    match source.value key with
    | .ok value_list => insert_all d1 key value_list
    | .error e => .error e

/-- The outer loop of `insert(const Dictionary*)` over the copy of the keys
that `source->keys()` returned. -/
def insert_dictionary_loop (d source : Dictionary) : List String → Except Fault Dictionary
  | [] => .ok d
  | key :: rest =>
    match insert_dictionary_step d source key with
    | .ok d1 => insert_dictionary_loop d1 source rest
    | .error e => .error e

/-- `void insert(const Dictionary* source)` with `source != this`; `source`
points to a live `Dictionary`. -/
def insert_dictionary (d source : Dictionary) : Except Fault Dictionary :=
  insert_dictionary_loop d source source.keys

/-- One iteration of the outer loop of `insert(const Dictionary*)` when
`source == this`: `source->value(key)` reads the object as it is at that
point of the loop. -/
def insert_self_step (d : Dictionary) (key : String) : Except Fault Dictionary :=
  let idx := d.contains key
  match (if idx < 0 then d.remove key else .ok d) with
  | .error e => .error e
  | .ok d1 =>
    match d1.value key with
    | .ok value_list => insert_all d1 key value_list
    | .error e => .error e

/-- The outer loop of `insert(const Dictionary*)` when `source == this`. -/
def insert_self_loop (d : Dictionary) : List String → Except Fault Dictionary
  | [] => .ok d
  | key :: rest =>
    match insert_self_step d key with
    | .ok d1 => insert_self_loop d1 rest
    | .error e => .error e

/-- `void insert(const Dictionary* source)` called as `d.insert(&d)`: the
keys are copied once, before the loop. -/
def insert_self (d : Dictionary) : Except Fault Dictionary :=
  insert_self_loop d d.keys

/-- The invariant of the data model: the two vectors are parallel, no key is
stored twice, and no key has an empty value list. -/
def Inv (d : Dictionary) : Prop :=
  d.m_keys.length = d.m_values.length ∧ d.m_keys.Nodup ∧ ∀ vs ∈ d.m_values, vs ≠ []

instance (d : Dictionary) : Decidable d.Inv := by
  unfold Inv; infer_instance

/-- The dictionaries a program can build: the public interface, applied any
finite number of times to the dictionary made by the constructor.  A call
counts when it returns normally. -/
inductive Reachable : Dictionary → Prop where
  | empty : Reachable Dictionary.empty
  | insert {d d1 : Dictionary} (key value : String) :
      Reachable d → d.insert key value = .ok d1 → Reachable d1
  | insert_dictionary {d source d1 : Dictionary} :
      Reachable d → Reachable source → d.insert_dictionary source = .ok d1 → Reachable d1
  | insert_self {d d1 : Dictionary} :
      Reachable d → d.insert_self = .ok d1 → Reachable d1
  | remove {d d1 : Dictionary} (key : String) :
      Reachable d → d.remove key = .ok d1 → Reachable d1
  | replace {d d1 : Dictionary} (key value : String) :
      Reachable d → d.replace key value = .ok d1 → Reachable d1

/-- A call that can add a key or change its values without removing it. -/
inductive Update where
  | insert (key value : String)
  | replace (key value : String)
  deriving DecidableEq, Repr

/-- The key that a call inserts, if it is an `insert`. -/
def Update.inserted_key : Update → Option String
  | .insert key _ => some key
  | .replace _ _ => none

/-- Perform one call on the dictionary. -/
def apply_update (d : Dictionary) : Update → Except Fault Dictionary
  | .insert key value => d.insert key value
  | .replace key value => d.replace key value

/-- Perform a sequence of calls, in order, on the dictionary. -/
def apply_updates (d : Dictionary) : List Update → Except Fault Dictionary
  | [] => .ok d
  | u :: rest =>
    match d.apply_update u with
    | .ok d1 => apply_updates d1 rest
    | .error e => .error e

/-- The distinct elements of a sequence in order of first occurrence: the
specification of `keys()`, written without reference to the code. -/
def first_occurrences : List String → List String
  | [] => []
  | key :: rest => key :: (first_occurrences rest).filter (fun x => x ≠ key)

/-- The (key, value) pairs held by parallel vectors of keys and value lists,
in key order and, for one key, in the order of its value list. -/
def pairs_of : List String → List (List String) → List (String × String)
  | key :: ks, value_list :: vss =>
    value_list.map (fun value => (key, value)) ++ pairs_of ks vss
  | _, _ => []

/-- The (key, value) pairs of a dictionary, in key order and then per-key
value order. -/
def pairs (d : Dictionary) : List (String × String) := pairs_of d.keys d.values

/-- Call `insert(key, value)` for every pair of a sequence, in order. -/
def insert_pairs (d : Dictionary) : List (String × String) → Except Fault Dictionary
  | [] => .ok d
  | (key, value) :: rest =>
    match d.insert key value with
    | .ok d1 => insert_pairs d1 rest
    | .error e => .error e

/-- The specification of `insert(source)`, written from its wording: call
`insert(key, value)` on the target for every pair of the source. -/
def insert_each_pair (target source : Dictionary) : Except Fault Dictionary :=
  target.insert_pairs source.pairs

end Dictionary

/-!
# `custom_structures::TreeStructure` (source/include/tree_structure.h)

An object of the class is a record of its data members.  A `TreeStructure*`
is an address, a natural number, and 0 is the null pointer; the objects that
exist are given by a `Heap`, which maps an address to the object stored
there.  A member function that reads or writes only the members of `this` is
a function on the record; `get_value(node_t)` and the destructor follow the
child pointers and take the heap.

* `m_attributes` is allocated in the constructor, deleted in the destructor
  and never handed out, so the `Dictionary` it points to is kept in the
  record itself.
* `m_value` is a `char*`: `none` is the null pointer, and `some s` is a buffer
  that holds the C string `s`.
* `node_t` is any type with a decidable equality, for `operator==`.
-/

/-- The C string that `s.c_str()` points to, as `strcpy_s` reads it: the
characters of `s` before the first NUL character. -/
def c_string (s : String) : String :=
  String.mk (s.data.takeWhile (fun c => c ≠ Char.ofNat 0))

/-- The class `TreeStructure<node_t>`: its private data members. -/
structure TreeStructure (node_t : Type) where
  /-- the count of edges on the path from the root node to this node -/
  m_level : Int
  /-- type of configuration node -/
  m_node_type : node_t
  /-- nodes specified as children of the object node -/
  m_children : List Nat
  /-- attributes assigned to the node -/
  m_attributes : Dictionary
  /-- value of node -/
  m_value : Option String
  /-- number of characters in m_value -/
  m_value_len : Nat
  deriving DecidableEq, Repr

/-- The objects of class `TreeStructure<node_t>` that exist, by address. -/
abbrev Heap (node_t : Type) := Nat → Option (TreeStructure node_t)

namespace TreeStructure

variable {node_t : Type}

/-- `TreeStructure(const node_t node_type, const int node_level)` -/
def new (node_type : node_t) (node_level : Int) : TreeStructure node_t :=
  ⟨node_level, node_type, [], Dictionary.empty, none, 0⟩

/-- `TreeStructure(const node_t node_type, const int node_level, std::string node_value)` -/
def new_with_value (node_type : node_t) (node_level : Int) (node_value : String) :
    TreeStructure node_t :=
  ⟨node_level, node_type, [], Dictionary.empty, some (c_string node_value),
    node_value.length + 1⟩

/-- `bool is_root()` -/
def is_root (n : TreeStructure node_t) : Bool := decide (n.m_level = 0)

/-- `bool is_leaf()` -/
def is_leaf (n : TreeStructure node_t) : Bool := decide (n.m_children.length < 1)

/-- `void add_child(TreeStructure* node)` -/
def add_child (n : TreeStructure node_t) (node : Nat) : TreeStructure node_t :=
  ⟨n.m_level, n.m_node_type, n.m_children ++ [node], n.m_attributes, n.m_value, n.m_value_len⟩

/-- `void add_attribute(std::string attribute_name, std::string attribute_value)` -/
def add_attribute (n : TreeStructure node_t) (attribute_name attribute_value : String) :
    Except Fault (TreeStructure node_t) :=
  match n.m_attributes.insert attribute_name attribute_value with
  | .ok attributes =>
    .ok ⟨n.m_level, n.m_node_type, n.m_children, attributes, n.m_value, n.m_value_len⟩
  | .error e => .error e

/-- `void replace_attribute(std::string attribute_name, std::string attribute_value)` -/
def replace_attribute (n : TreeStructure node_t) (attribute_name attribute_value : String) :
    Except Fault (TreeStructure node_t) :=
  match n.m_attributes.replace attribute_name attribute_value with
  | .ok attributes =>
    .ok ⟨n.m_level, n.m_node_type, n.m_children, attributes, n.m_value, n.m_value_len⟩
  | .error e => .error e

/-- `int number_of_children()` -/
def number_of_children (n : TreeStructure node_t) : Int := (n.m_children.length : Int)

/-- `TreeStructure* get_child(int node_idx = -1)`; `back()` needs a vector
that is not empty. -/
def get_child (n : TreeStructure node_t) (node_idx : Int) : Except Fault Nat :=
  if n.m_children.length < 1 then .ok 0
  else if node_idx < 0 then
    match n.m_children.getLast? with
    | some child => .ok child
    | none => .error .undefined_behaviour
  else if node_idx < (n.m_children.length : Int) then vec_at n.m_children node_idx
  else .ok 0

/-- `get_child()`, the call with the default argument `node_idx = -1`. -/
def get_child_default (n : TreeStructure node_t) : Except Fault Nat := n.get_child (-1)

/-- `std::vector<TreeStructure*> get_children() const` -/
def get_children (n : TreeStructure node_t) : List Nat := n.m_children

/-- `int get_level()` -/
def get_level (n : TreeStructure node_t) : Int := n.m_level

/-- `node_t get_type() const` -/
def get_type (n : TreeStructure node_t) : node_t := n.m_node_type

/-- `const char* get_value() const` -/
def get_value (n : TreeStructure node_t) : Option String := n.m_value

end TreeStructure

namespace Heap

variable {node_t : Type}

/-- The heap without any object. -/
def empty : Heap node_t := fun _ => none

/-- The object a pointer points to; there is none for the null pointer and
for an address at which no object exists. -/
def deref (h : Heap node_t) (p : Nat) : Option (TreeStructure node_t) :=
  if p = 0 then none else h p

/-- The heap with the object at address `p` set to `obj`. -/
def store (h : Heap node_t) (p : Nat) (obj : TreeStructure node_t) : Heap node_t :=
  fun q => if q = p then some obj else h q

/-- The heap with the memory at address `p` released. -/
def free (h : Heap node_t) (p : Nat) : Heap node_t :=
  fun q => if q = p then none else h q

/-- The heap with the memory at every address of `l` released. -/
def free_all (h : Heap node_t) (l : List Nat) : Heap node_t :=
  fun q => if q ∈ l then none else h q

/-- The loop of `get_value(node_t)` over the child pointers; `node->get_type()`
needs `node` to point to an object. -/
def get_value_loop [DecidableEq node_t] (h : Heap node_t) (node_type : node_t) :
    List Nat → Except Fault (Option String)
  | [] => .ok none
  | node :: rest =>
    match h.deref node with
    | none => .error .undefined_behaviour
    | some child =>
      if child.get_type = node_type then .ok child.get_value
      else get_value_loop h node_type rest

/-- `const char* get_value(node_t node_type) const`, called on the object `n`. -/
def get_value_by_type [DecidableEq node_t] (h : Heap node_t) (n : TreeStructure node_t)
    (node_type : node_t) : Except Fault (Option String) :=
  h.get_value_loop node_type n.m_children

/-- A call `p->f(...)` of a member function that changes the object: `p` has
to point to an object, and the object is replaced by the changed one. -/
def call (h : Heap node_t) (p : Nat)
    (f : TreeStructure node_t → Except Fault (TreeStructure node_t)) :
    Except Fault (Heap node_t) :=
  match h.deref p with
  | none => .error .undefined_behaviour
  | some obj =>
    match f obj with
    | .ok obj1 => .ok (h.store p obj1)
    | .error e => .error e

/-- `p->add_child(node)` -/
def add_child (h : Heap node_t) (p node : Nat) : Except Fault (Heap node_t) :=
  h.call p (fun obj => .ok (obj.add_child node))

/-- `p->add_attribute(attribute_name, attribute_value)` -/
def add_attribute (h : Heap node_t) (p : Nat) (attribute_name attribute_value : String) :
    Except Fault (Heap node_t) :=
  h.call p (fun obj => obj.add_attribute attribute_name attribute_value)

/-- `p->replace_attribute(attribute_name, attribute_value)` -/
def replace_attribute (h : Heap node_t) (p : Nat) (attribute_name attribute_value : String) :
    Except Fault (Heap node_t) :=
  h.call p (fun obj => obj.replace_attribute attribute_name attribute_value)

end Heap

/-- What a destructor call releases, in the order of the calls: the
`Dictionary` of a node (`delete m_attributes`), the value buffer of a node
(`delete[] m_value`), and the node itself. -/
inductive Event where
  | attributes_deleted (node : Nat)
  | value_deleted (node : Nat)
  | node_deleted (node : Nat)
  deriving DecidableEq, Repr

/-- The node whose memory an event releases, if the event is the release of
a node. -/
def Event.deleted_node : Event → Option Nat
  | .node_deleted node => some node
  | _ => none

namespace Heap

variable {node_t : Type}

/-- The loop `for (auto children : m_children) delete children;` of the
destructor, `delete_child` being the `delete` of one pointer.  The result is
`none` when a `delete` does not finish. -/
def delete_each
    (delete_child : Heap node_t → Nat → Option (Except Fault (Heap node_t × List Event)))
    (h : Heap node_t) : List Nat → Option (Except Fault (Heap node_t × List Event))
  | [] => some (.ok (h, []))
  | child :: rest =>
    match delete_child h child with
    | some (.ok (h1, events1)) =>
      match delete_each delete_child h1 rest with
      | some (.ok (h2, events2)) => some (.ok (h2, events1 ++ events2))
      | other => other
    | other => other

/-- What the body of `~TreeStructure()` releases after the loop over the
children, and the release of the object itself that ends `delete p`. -/
def own_events (p : Nat) (obj : TreeStructure node_t) : List Event :=
  [Event.attributes_deleted p] ++
    (if obj.m_value.isSome then [Event.value_deleted p] else []) ++
    [Event.node_deleted p]

/-- `delete p;` for a `TreeStructure* p`: nothing for the null pointer;
otherwise `~TreeStructure()` runs on the object and its memory is released.
`delete` of an address at which no object exists has no defined behaviour.
The recursion of the destructor is cut at depth `fuel`: the result is `none`
if it is deeper. -/
def delete : Nat → Heap node_t → Nat → Option (Except Fault (Heap node_t × List Event))
  | 0, _, _ => none
  | fuel + 1, h, p =>
    if p = 0 then some (.ok (h, []))
    else
      match h p with
      | none => some (.error .undefined_behaviour)
      | some obj =>
        match delete_each (delete fuel) h obj.m_children with
        | some (.ok (h1, events)) => some (.ok (h1.free p, events ++ own_events p obj))
        | other => other

/-- The nodes that the pointers of a list own, `owned` being the nodes owned
through one pointer. -/
def owned_each (owned : Nat → Option (List Nat)) : List Nat → Option (List Nat)
  | [] => some []
  | child :: rest =>
    match owned child, owned_each owned rest with
    | some l1, some l2 => some (l1 ++ l2)
    | _, _ => none

/-- The nodes owned through the pointer `p`, found by following the child
pointers to depth `fuel` at most: the nodes owned through each child, child
after child, and then the node at `p` itself (post-order).  There is no
result if a pointer leads to an address without an object or if the chain of
child pointers is longer than `fuel`. -/
def owned : Nat → Heap node_t → Nat → Option (List Nat)
  | 0, _, _ => none
  | fuel + 1, h, p =>
    if p = 0 then some []
    else
      match h p with
      | none => none
      | some obj =>
        match owned_each (owned fuel h) obj.m_children with
        | some l => some (l ++ [p])
        | none => none

end Heap

/-- A heap that holds a tree of three levels, built by the constructors and
`add_child`: the root, at address 1, has the children at 2 and 3, and the
node at 2 has the child at 4.  The nodes at 2 and 4 have the type 8 and the
values `x` and `y`. -/
def three_level_tree : Heap Nat :=
  (((Heap.empty.store 1 (((TreeStructure.new 7 0).add_child 2).add_child 3)).store 2
    ((TreeStructure.new_with_value 8 1 "x").add_child 4)).store 3
    (TreeStructure.new 9 1)).store 4 (TreeStructure.new_with_value 8 2 "y")

/-- The node an event belongs to. -/
def Event.node : Event → Nat
  | .attributes_deleted node => node
  | .value_deleted node => node
  | .node_deleted node => node

namespace Heap

variable {node_t : Type}

/-- What the destructor of the node at `p` releases itself; nothing if no
object exists at `p`. -/
def events_of (h : Heap node_t) (p : Nat) : List Event :=
  match h p with
  | some obj => own_events p obj
  | none => []

/-- What the destructors of the nodes of a list release, node after node. -/
def events_for (h : Heap node_t) : List Nat → List Event
  | [] => []
  | p :: rest => h.events_of p ++ events_for h rest

end Heap

/-! ## `std::find` and `contains` -/

theorem find_le (ks : List String) (key : String) : find ks key ≤ ks.length := by
  induction ks with
  | nil => simp [find]
  | cons x xs ih => by_cases h : x = key <;> simp [find, h]; omega

theorem find_eq_length_iff (ks : List String) (key : String) :
    find ks key = ks.length ↔ key ∉ ks := by
  induction ks with
  | nil => simp [find]
  | cons x xs ih =>
    by_cases h : x = key
    · simp [find, h]
    · have h1 : ¬ key = x := fun e => h e.symm
      simp [find, h, h1, ih]

theorem find_lt_iff (ks : List String) (key : String) :
    find ks key < ks.length ↔ key ∈ ks := by
  have h1 := find_le ks key
  have h2 := find_eq_length_iff ks key
  constructor
  · intro h
    by_contra hn
    have := h2.mpr hn
    omega
  · intro h
    have : find ks key ≠ ks.length := fun e => (h2.mp e) h
    omega

theorem find_get? (ks : List String) (key : String) (h : key ∈ ks) :
    ks[find ks key]? = some key := by
  induction ks with
  | nil => simp at h
  | cons x xs ih =>
    by_cases hx : x = key
    · simp [find, hx]
    · have h1 : ¬ key = x := fun e => hx e.symm
      simp [h1] at h
      simp [find, hx, ih h]

theorem find_first (ks : List String) (key : String) (j : Nat) (hj : j < find ks key) :
    ks[j]? ≠ some key := by
  induction ks generalizing j with
  | nil => simp
  | cons x xs ih =>
    by_cases hx : x = key
    · simp [find, hx] at hj
    · simp [find, hx] at hj
      cases j with
      | zero => simpa using hx
      | succ j => simpa using ih j (by omega)

namespace Dictionary

theorem contains_of_not_mem (d : Dictionary) (key : String) (h : key ∉ d.m_keys) :
    d.contains key = -1 := by
  simp [contains, (find_eq_length_iff d.m_keys key).mpr h]

theorem contains_of_mem (d : Dictionary) (key : String) (h : key ∈ d.m_keys) :
    d.contains key = (find d.m_keys key : Int) := by
  have := (find_lt_iff d.m_keys key).mpr h
  simp [contains, Nat.ne_of_lt this]

theorem contains_neg_iff (d : Dictionary) (key : String) :
    d.contains key < 0 ↔ key ∉ d.m_keys := by
  by_cases h : key ∈ d.m_keys
  · simp [contains_of_mem d key h, h]
  · simp [contains_of_not_mem d key h, h]

theorem contains_nonneg_iff (d : Dictionary) (key : String) :
    d.contains key ≥ 0 ↔ key ∈ d.m_keys := by
  have := contains_neg_iff d key
  constructor
  · intro h; by_contra hn; have := this.mpr hn; omega
  · intro h; by_contra hn; exact (this.mp (by omega)) h

end Dictionary

/-! ## The vector primitives -/

theorem vec_at_natCast {α : Type} (v : List α) (i : Nat) :
    vec_at v (i : Int) = match v[i]? with
      | some x => .ok x
      | none => .error .out_of_range := by
  simp [vec_at]

theorem vec_at_of_getElem? {α : Type} (v : List α) (i : Nat) (x : α) (h : v[i]? = some x) :
    vec_at v (i : Int) = .ok x := by
  simp [vec_at, h]

theorem vec_at_update_of_getElem? {α : Type} (v : List α) (i : Nat) (x : α) (f : α → α)
    (h : v[i]? = some x) : vec_at_update v (i : Int) f = .ok (v.set i (f x)) := by
  simp [vec_at_update, vec_at_of_getElem? v i x h]

theorem vec_erase_of_lt {α : Type} (v : List α) (i : Nat) (h : i < v.length) :
    vec_erase v (i : Int) = .ok (v.eraseIdx i) := by
  simp [vec_erase, h]

namespace Dictionary

/-! ## Closed forms of the member functions -/

theorem insert_of_not_mem (d : Dictionary) (key value : String) (h : key ∉ d.m_keys) :
    d.insert key value = .ok ⟨d.m_keys ++ [key], d.m_values ++ [[value]]⟩ := by
  simp [insert, contains_of_not_mem d key h]

theorem insert_of_mem (d : Dictionary) (key value : String) (L : List String)
    (h : key ∈ d.m_keys) (hL : d.m_values[find d.m_keys key]? = some L) :
    d.insert key value = .ok ⟨d.m_keys, d.m_values.set (find d.m_keys key) (L ++ [value])⟩ := by
  simp [insert, contains_of_mem d key h, vec_at_update_of_getElem? _ _ _ _ hL]

theorem replace_of_not_mem (d : Dictionary) (key value : String) (h : key ∉ d.m_keys) :
    d.replace key value = .ok d := by
  simp [replace, contains_of_not_mem d key h]

theorem replace_of_mem (d : Dictionary) (key value : String) (L : List String)
    (h : key ∈ d.m_keys) (hL : d.m_values[find d.m_keys key]? = some L) :
    d.replace key value = .ok ⟨d.m_keys, d.m_values.set (find d.m_keys key) [value]⟩ := by
  simp [replace, contains_of_mem d key h, vec_at_update_of_getElem? _ _ _ _ hL]

theorem remove_of_not_mem (d : Dictionary) (key : String) (h : key ∉ d.m_keys) :
    d.remove key = .ok d := by
  simp [remove, contains_of_not_mem d key h]

theorem remove_of_mem (d : Dictionary) (key : String) (h : key ∈ d.m_keys)
    (hv : find d.m_keys key < d.m_values.length) :
    d.remove key = .ok ⟨d.m_keys.eraseIdx (find d.m_keys key),
      d.m_values.eraseIdx (find d.m_keys key)⟩ := by
  have hk := (find_lt_iff d.m_keys key).mpr h
  simp [remove, contains_of_mem d key h, vec_erase_of_lt _ _ hk, vec_erase_of_lt _ _ hv]

theorem value_of_mem (d : Dictionary) (key : String) (L : List String)
    (h : key ∈ d.m_keys) (hL : d.m_values[find d.m_keys key]? = some L) :
    d.value key = .ok L := by
  simp [value, contains_of_mem d key h, vec_at_of_getElem? _ _ _ hL]

theorem value_of_not_mem (d : Dictionary) (key : String) (h : key ∉ d.m_keys) :
    d.value key = .error .undefined_behaviour := by
  simp [value, contains_of_not_mem d key h]

theorem size_key_of_mem (d : Dictionary) (key : String) (L : List String)
    (h : key ∈ d.m_keys) (hL : d.m_values[find d.m_keys key]? = some L) :
    d.size_key key = .ok (L.length : Int) := by
  simp [size_key, contains_of_mem d key h, vec_at_of_getElem? _ _ _ hL]

theorem size_key_of_not_mem (d : Dictionary) (key : String) (h : key ∉ d.m_keys) :
    d.size_key key = .ok (-1) := by
  simp [size_key, contains_of_not_mem d key h]

/-- Under the invariant a stored key has a value list, at the offset of the key. -/
theorem Inv.value_list {d : Dictionary} (hd : d.Inv) {key : String} (h : key ∈ d.m_keys) :
    ∃ L, d.m_values[find d.m_keys key]? = some L ∧ L ≠ [] := by
  have hk := (find_lt_iff d.m_keys key).mpr h
  have hlt : find d.m_keys key < d.m_values.length := hd.1 ▸ hk
  refine ⟨d.m_values[find d.m_keys key], List.getElem?_eq_getElem hlt, ?_⟩
  exact hd.2.2 _ (List.getElem_mem hlt)

/-! ## The invariant is kept by every member function -/

theorem Inv.empty : Dictionary.empty.Inv := by
  simp [Inv, Dictionary.empty]

theorem Inv.insert {d : Dictionary} (hd : d.Inv) (key value : String) :
    ∃ d1, d.insert key value = .ok d1 ∧ d1.Inv ∧
      d1.m_keys = (if key ∈ d.m_keys then d.m_keys else d.m_keys ++ [key]) := by
  by_cases h : key ∈ d.m_keys
  · obtain ⟨L, hL, _⟩ := hd.value_list h
    refine ⟨_, insert_of_mem d key value L h hL, ⟨?_, hd.2.1, ?_⟩, by simp [h]⟩
    · simpa using hd.1
    · intro vs hvs
      rcases List.mem_or_eq_of_mem_set hvs with h1 | h1
      · exact hd.2.2 vs h1
      · simp [h1]
  · refine ⟨_, insert_of_not_mem d key value h, ⟨?_, ?_, ?_⟩, by simp [h]⟩
    · simpa using hd.1
    · simpa [List.nodup_append, h] using hd.2.1
    · intro vs hvs
      rcases List.mem_append.mp hvs with h1 | h1
      · exact hd.2.2 vs h1
      · simp at h1; simp [h1]

theorem Inv.replace {d : Dictionary} (hd : d.Inv) (key value : String) :
    ∃ d1, d.replace key value = .ok d1 ∧ d1.Inv ∧ d1.m_keys = d.m_keys := by
  by_cases h : key ∈ d.m_keys
  · obtain ⟨L, hL, _⟩ := hd.value_list h
    refine ⟨_, replace_of_mem d key value L h hL, ⟨?_, hd.2.1, ?_⟩, rfl⟩
    · simpa using hd.1
    · intro vs hvs
      rcases List.mem_or_eq_of_mem_set hvs with h1 | h1
      · exact hd.2.2 vs h1
      · simp [h1]
  · exact ⟨d, replace_of_not_mem d key value h, hd, rfl⟩

theorem Inv.remove {d : Dictionary} (hd : d.Inv) (key : String) :
    ∃ d1, d.remove key = .ok d1 ∧ d1.Inv ∧ d1.m_keys.Sublist d.m_keys := by
  by_cases h : key ∈ d.m_keys
  · have hk := (find_lt_iff d.m_keys key).mpr h
    have hv : find d.m_keys key < d.m_values.length := hd.1 ▸ hk
    refine ⟨_, remove_of_mem d key h hv, ⟨?_, ?_, ?_⟩, List.eraseIdx_sublist _ _⟩
    · simp [List.length_eraseIdx, hk, hv, hd.1]
    · exact hd.2.1.sublist (List.eraseIdx_sublist _ _)
    · intro vs hvs
      exact hd.2.2 vs ((List.eraseIdx_sublist _ _).subset hvs)
  · exact ⟨d, remove_of_not_mem d key h, hd, List.Sublist.refl _⟩

theorem Inv.insert_all {d : Dictionary} (hd : d.Inv) (key : String) (value_list : List String) :
    ∃ d1, d.insert_all key value_list = .ok d1 ∧ d1.Inv ∧ d.m_keys ⊆ d1.m_keys := by
  induction value_list generalizing d with
  | nil => exact ⟨d, rfl, hd, List.Subset.refl _⟩
  | cons v rest ih =>
    obtain ⟨d1, h1, hInv1, hk1⟩ := hd.insert key v
    obtain ⟨d2, h2, hInv2, hk2⟩ := ih hInv1
    refine ⟨d2, by simp [Dictionary.insert_all, h1, h2], hInv2, ?_⟩
    intro x hx
    apply hk2
    rw [hk1]
    split
    · exact hx
    · exact List.mem_append_left _ hx

/-- The `remove` call in the loop of `insert(const Dictionary*)` is made only
for an absent key, and does nothing then. -/
theorem remove_in_loop (d : Dictionary) (key : String) :
    (if d.contains key < 0 then d.remove key else .ok d) = .ok d := by
  split
  · rename_i h
    exact remove_of_not_mem d key ((contains_neg_iff d key).mp h)
  · rfl

theorem insert_dictionary_step_eq (d source : Dictionary) (key : String) :
    d.insert_dictionary_step source key =
      match source.value key with
      | .ok value_list => d.insert_all key value_list
      | .error e => .error e := by
  simp only [insert_dictionary_step, remove_in_loop]

theorem insert_self_step_eq (d : Dictionary) (key : String) :
    d.insert_self_step key =
      match d.value key with
      | .ok value_list => d.insert_all key value_list
      | .error e => .error e := by
  simp only [insert_self_step, remove_in_loop]

theorem Inv.value {d : Dictionary} (hd : d.Inv) {key : String} (h : key ∈ d.m_keys) :
    ∃ L, d.value key = .ok L ∧ d.m_values[find d.m_keys key]? = some L ∧ L ≠ [] := by
  obtain ⟨L, hL, hne⟩ := hd.value_list h
  exact ⟨L, value_of_mem d key L h hL, hL, hne⟩

theorem Inv.insert_dictionary_loop {d source : Dictionary} (hd : d.Inv) (hs : source.Inv)
    (ks : List String) (hks : ks ⊆ source.m_keys) :
    ∃ d1, d.insert_dictionary_loop source ks = .ok d1 ∧ d1.Inv := by
  induction ks generalizing d with
  | nil => exact ⟨d, rfl, hd⟩
  | cons k rest ih =>
    obtain ⟨L, hL, _⟩ := hs.value (hks (List.mem_cons_self k rest))
    obtain ⟨d1, h1, hInv1, _⟩ := hd.insert_all k L
    obtain ⟨d2, h2, hInv2⟩ := ih hInv1 (fun x hx => hks (List.mem_cons_of_mem k hx))
    exact ⟨d2, by simp [Dictionary.insert_dictionary_loop, insert_dictionary_step_eq, hL, h1, h2],
      hInv2⟩

theorem Inv.insert_dictionary {d source : Dictionary} (hd : d.Inv) (hs : source.Inv) :
    ∃ d1, d.insert_dictionary source = .ok d1 ∧ d1.Inv :=
  hd.insert_dictionary_loop hs source.m_keys (List.Subset.refl _)

theorem Inv.insert_self_loop {d : Dictionary} (hd : d.Inv)
    (ks : List String) (hks : ks ⊆ d.m_keys) :
    ∃ d1, d.insert_self_loop ks = .ok d1 ∧ d1.Inv := by
  induction ks generalizing d with
  | nil => exact ⟨d, rfl, hd⟩
  | cons k rest ih =>
    obtain ⟨L, hL, _⟩ := hd.value (hks (List.mem_cons_self k rest))
    obtain ⟨d1, h1, hInv1, hsub⟩ := hd.insert_all k L
    obtain ⟨d2, h2, hInv2⟩ := ih hInv1 (fun x hx => hsub (hks (List.mem_cons_of_mem k hx)))
    exact ⟨d2, by simp [Dictionary.insert_self_loop, insert_self_step_eq, hL, h1, h2], hInv2⟩

theorem Inv.insert_self {d : Dictionary} (hd : d.Inv) :
    ∃ d1, d.insert_self = .ok d1 ∧ d1.Inv :=
  hd.insert_self_loop d.m_keys (List.Subset.refl _)

theorem Reachable.inv {d : Dictionary} (h : d.Reachable) : d.Inv := by
  induction h with
  | empty => exact Inv.empty
  | insert key value _ h1 ih =>
    obtain ⟨d2, h2, hInv, _⟩ := ih.insert key value
    rw [h1] at h2; cases h2; exact hInv
  | insert_dictionary _ _ h1 ih ihs =>
    obtain ⟨d2, h2, hInv⟩ := ih.insert_dictionary ihs
    rw [h1] at h2; cases h2; exact hInv
  | insert_self _ h1 ih =>
    obtain ⟨d2, h2, hInv⟩ := ih.insert_self
    rw [h1] at h2; cases h2; exact hInv
  | remove key _ h1 ih =>
    obtain ⟨d2, h2, hInv, _⟩ := ih.remove key
    rw [h1] at h2; cases h2; exact hInv
  | replace key value _ h1 ih =>
    obtain ⟨d2, h2, hInv, _⟩ := ih.replace key value
    rw [h1] at h2; cases h2; exact hInv

end Dictionary

/-! ## `std::find` on a vector without repetition -/

theorem find_getElem_of_nodup (ks : List String) (hn : ks.Nodup) (i : Nat) (hi : i < ks.length) :
    find ks ks[i] = i := by
  induction ks generalizing i with
  | nil => simp at hi
  | cons x xs ih =>
    have hx := (List.nodup_cons.mp hn)
    cases i with
    | zero => simp [find]
    | succ j =>
      have hj : j < xs.length := by simpa using hi
      have hne : ¬ x = xs[j] := fun e => hx.1 (e ▸ List.getElem_mem hj)
      simp [find, hne, ih hx.2 j hj]

theorem not_mem_eraseIdx_find (ks : List String) (hn : ks.Nodup) (key : String) :
    key ∉ ks.eraseIdx (find ks key) := by
  induction ks with
  | nil => simp
  | cons x xs ih =>
    have hx := (List.nodup_cons.mp hn)
    by_cases h : x = key
    · simpa [find, h] using (h ▸ hx.1)
    · have h1 : ¬ key = x := fun e => h e.symm
      simp [find, h, h1, ih hx.2]

/-! ## Offsets after `push_back` -/

theorem find_append_of_mem (ks : List String) (key x : String) (h : key ∈ ks) :
    find (ks ++ [x]) key = find ks key := by
  induction ks with
  | nil => simp at h
  | cons y ys ih =>
    by_cases hy : y = key
    · simp [find, hy]
    · have h1 : ¬ key = y := fun e => hy e.symm
      simp [h1] at h
      simp [find, hy, ih h]

theorem find_append_self (ks : List String) (key : String) (h : key ∉ ks) :
    find (ks ++ [key]) key = ks.length := by
  induction ks with
  | nil => simp [find]
  | cons y ys ih =>
    have hy : ¬ y = key := fun e => h (e ▸ List.mem_cons_self y ys)
    have h2 : key ∉ ys := fun e => h (List.mem_cons_of_mem y e)
    simp [find, hy, ih h2]

namespace Dictionary

theorem value_ok_iff (d : Dictionary) (key : String) (L : List String) :
    d.value key = .ok L ↔ key ∈ d.m_keys ∧ d.m_values[find d.m_keys key]? = some L := by
  by_cases h : key ∈ d.m_keys
  · simp only [value, contains_of_mem d key h, vec_at_natCast, h, true_and]
    cases hv : d.m_values[find d.m_keys key]? <;> simp
  · simp [value_of_not_mem d key h, h]

/-! ## Keys after a sequence of `insert` and `replace` calls -/

theorem filter_first_occurrences_cons_of_mem (ks : List String) (key : String)
    (rest : List String) (h : key ∈ ks) :
    (first_occurrences (key :: rest)).filter (fun x => x ∉ ks) =
      (first_occurrences rest).filter (fun x => x ∉ ks) := by
  simp only [first_occurrences, List.filter_cons, h, not_true_eq_false, decide_False,
    Bool.false_eq_true, if_false, List.filter_filter]
  apply List.filter_congr
  intro x _
  by_cases hx : x ∈ ks
  · simp [hx]
  · have : x ≠ key := fun e => hx (e ▸ h)
    simp [hx, this]

theorem filter_first_occurrences_cons_of_not_mem (ks : List String) (key : String)
    (rest : List String) (h : key ∉ ks) :
    (first_occurrences (key :: rest)).filter (fun x => x ∉ ks) =
      key :: (first_occurrences rest).filter (fun x => x ∉ ks ++ [key]) := by
  simp only [first_occurrences, List.filter_cons, h, not_false_eq_true, decide_True,
    if_true, List.filter_filter, List.cons.injEq, true_and]
  apply List.filter_congr
  intro x _
  by_cases hx : x ∈ ks <;> by_cases hk : x = key <;> simp [hx, hk]

theorem Inv.apply_updates {d : Dictionary} (hd : d.Inv) (us : List Update) :
    ∃ d1, d.apply_updates us = .ok d1 ∧ d1.Inv ∧
      d1.m_keys = d.m_keys ++
        (first_occurrences (us.filterMap Update.inserted_key)).filter (fun x => x ∉ d.m_keys) := by
  induction us generalizing d with
  | nil => exact ⟨d, rfl, hd, by simp [first_occurrences]⟩
  | cons u rest ih =>
    cases u with
    | insert key value =>
      obtain ⟨d1, h1, hInv1, hk1⟩ := hd.insert key value
      obtain ⟨d2, h2, hInv2, hk2⟩ := ih hInv1
      refine ⟨d2, by simp [Dictionary.apply_updates, apply_update, h1, h2], hInv2, ?_⟩
      rw [hk2, hk1]
      by_cases h : key ∈ d.m_keys
      · simp only [h, if_true, List.filterMap_cons, Update.inserted_key]
        rw [filter_first_occurrences_cons_of_mem _ _ _ h]
      · simp only [h, if_false, List.filterMap_cons, Update.inserted_key]
        rw [filter_first_occurrences_cons_of_not_mem _ _ _ h]
        simp
    | replace key value =>
      obtain ⟨d1, h1, hInv1, hk1⟩ := hd.replace key value
      obtain ⟨d2, h2, hInv2, hk2⟩ := ih hInv1
      refine ⟨d2, by simp [Dictionary.apply_updates, apply_update, h1, h2], hInv2, ?_⟩
      rw [hk2, hk1]
      simp [Update.inserted_key]

theorem insert_keys (d d1 : Dictionary) (key value : String) (h : d.insert key value = .ok d1) :
    d1.m_keys = (if key ∈ d.m_keys then d.m_keys else d.m_keys ++ [key]) := by
  by_cases hk : key ∈ d.m_keys
  · simp only [insert, contains_of_mem d key hk, hk, if_true] at h ⊢
    split at h
    · omega
    · split at h
      · cases h; rfl
      · cases h
  · rw [insert_of_not_mem d key value hk] at h
    cases h; simp [hk]

theorem replace_keys (d d1 : Dictionary) (key value : String)
    (h : d.replace key value = .ok d1) : d1.m_keys = d.m_keys := by
  simp only [replace] at h
  split at h
  · split at h
    · cases h; rfl
    · cases h
  · cases h; rfl

/-! ## `value` and `size(key)` after `insert` and `replace` -/

theorem Inv.insert_absent {d : Dictionary} (hd : d.Inv) (key value : String)
    (h : key ∉ d.m_keys) :
    ∃ d1, d.insert key value = .ok d1 ∧ d1.value key = .ok [value] ∧
      d1.size_key key = .ok 1 := by
  refine ⟨_, insert_of_not_mem d key value h, ?_, ?_⟩
  · apply value_of_mem _ _ _ (by simp)
    simp [find_append_self _ _ h, hd.1]
  · have := size_key_of_mem ⟨d.m_keys ++ [key], d.m_values ++ [[value]]⟩ key [value] (by simp)
      (by simp [find_append_self _ _ h, hd.1])
    simpa using this

theorem Inv.insert_present {d : Dictionary} (hd : d.Inv) (key value : String)
    (L : List String) (h : d.value key = .ok L) :
    ∃ d1, d.insert key value = .ok d1 ∧ d1.value key = .ok (L ++ [value]) ∧
      d1.size_key key = .ok ((L.length : Int) + 1) := by
  obtain ⟨hk, hL⟩ := (value_ok_iff d key L).mp h
  have hlt : find d.m_keys key < d.m_values.length := hd.1 ▸ (find_lt_iff d.m_keys key).mpr hk
  refine ⟨_, insert_of_mem d key value L hk hL, ?_, ?_⟩
  · exact value_of_mem _ _ _ hk (List.getElem?_set_self hlt)
  · have := size_key_of_mem ⟨d.m_keys, d.m_values.set (find d.m_keys key) (L ++ [value])⟩ key
      (L ++ [value]) hk (List.getElem?_set_self hlt)
    simpa using this

theorem Inv.replace_present {d : Dictionary} (hd : d.Inv) (key value : String)
    (h : key ∈ d.m_keys) :
    ∃ d1, d.replace key value = .ok d1 ∧ d1.value key = .ok [value] := by
  obtain ⟨L, hL, _⟩ := hd.value_list h
  have hlt : find d.m_keys key < d.m_values.length := hd.1 ▸ (find_lt_iff d.m_keys key).mpr h
  exact ⟨_, replace_of_mem d key value L h hL,
    value_of_mem _ _ _ h (List.getElem?_set_self hlt)⟩

/-! ## `remove` -/

theorem Inv.remove_absent_after {d : Dictionary} (hd : d.Inv) (key : String) :
    ∃ d1, d.remove key = .ok d1 ∧ key ∉ d1.m_keys ∧
      (key ∈ d.m_keys → d1.size = d.size - 1) ∧ (key ∉ d.m_keys → d1 = d) := by
  by_cases h : key ∈ d.m_keys
  · have hk := (find_lt_iff d.m_keys key).mpr h
    have hv : find d.m_keys key < d.m_values.length := hd.1 ▸ hk
    refine ⟨_, remove_of_mem d key h hv, not_mem_eraseIdx_find _ hd.2.1 key, ?_, ?_⟩
    · intro _
      simp only [size, List.length_eraseIdx, hk, if_true]
      omega
    · intro hn; exact absurd h hn
  · exact ⟨d, remove_of_not_mem d key h, h, fun hn => absurd hn h, fun _ => rfl⟩

/-! ## `insert(source)` against inserting every pair of the source -/

theorem insert_pairs_append (d : Dictionary) (ps qs : List (String × String)) :
    d.insert_pairs (ps ++ qs) =
      match d.insert_pairs ps with
      | .ok d1 => d1.insert_pairs qs
      | .error e => .error e := by
  induction ps generalizing d with
  | nil => simp [insert_pairs]
  | cons p rest ih =>
    obtain ⟨key, value⟩ := p
    simp only [List.cons_append, insert_pairs]
    cases h : d.insert key value with
    | ok d1 => simp [ih]
    | error e => simp

theorem insert_pairs_map (d : Dictionary) (key : String) (value_list : List String) :
    d.insert_pairs (value_list.map (fun value => (key, value))) =
      d.insert_all key value_list := by
  induction value_list generalizing d with
  | nil => simp [insert_pairs, insert_all]
  | cons v rest ih =>
    simp only [List.map_cons, insert_pairs, insert_all]
    cases h : d.insert key v with
    | ok d1 => simp [ih]
    | error e => simp

theorem insert_dictionary_loop_eq (d source : Dictionary) (ks : List String)
    (vss : List (List String))
    (h : List.Forall₂ (fun key value_list => source.value key = .ok value_list) ks vss) :
    d.insert_dictionary_loop source ks = d.insert_pairs (pairs_of ks vss) := by
  induction h generalizing d with
  | nil => simp [insert_dictionary_loop, pairs_of, insert_pairs]
  | cons hv _ ih =>
    simp only [insert_dictionary_loop, insert_dictionary_step_eq, hv, pairs_of,
      insert_pairs_append, insert_pairs_map]
    cases h1 : d.insert_all _ _ with
    | ok d1 => simp [ih]
    | error e => simp

/-- Under the invariant `values()` is parallel to `keys()`: the value list at
an offset is the one `value` returns for the key at that offset. -/
theorem Inv.value_getElem {d : Dictionary} (hd : d.Inv) (i : Nat) (hk : i < d.m_keys.length)
    (hv : i < d.m_values.length) : d.value d.m_keys[i] = .ok d.m_values[i] := by
  apply value_of_mem d _ _ (List.getElem_mem hk)
  rw [find_getElem_of_nodup _ hd.2.1 i hk]
  exact List.getElem?_eq_getElem hv

theorem Inv.forall₂_value {d : Dictionary} (hd : d.Inv) :
    List.Forall₂ (fun key value_list => d.value key = .ok value_list) d.m_keys d.m_values := by
  rw [List.forall₂_iff_get]
  refine ⟨hd.1, ?_⟩
  intro i h1 h2
  simpa using hd.value_getElem i h1 h2

theorem insert_dictionary_eq (target source : Dictionary) (hs : source.Inv) :
    target.insert_dictionary source = target.insert_each_pair source :=
  insert_dictionary_loop_eq target source _ _ hs.forall₂_value

end Dictionary

/-! ## What `insert` does to the other keys -/

theorem find_ne_of_ne (ks : List String) (a b : String) (ha : a ∈ ks) (hab : a ≠ b) :
    find ks a ≠ find ks b := by
  intro e
  have h1 := find_get? ks a ha
  by_cases hb : b ∈ ks
  · have h2 := find_get? ks b hb
    rw [e, h2] at h1
    exact hab (Option.some.inj h1).symm
  · have := (find_eq_length_iff ks b).mpr hb
    have := (find_lt_iff ks a).mpr ha
    omega

namespace Dictionary

theorem value_mk_of_mem (ks : List String) (vss : List (List String)) (key : String)
    (h : key ∈ ks) :
    (Dictionary.mk ks vss).value key = vec_at vss (find ks key : Int) := by
  have := contains_of_mem ⟨ks, vss⟩ key h
  simp [Dictionary.value, this]

theorem value_mk_of_not_mem (ks : List String) (vss : List (List String)) (key : String)
    (h : key ∉ ks) : (Dictionary.mk ks vss).value key = .error .undefined_behaviour :=
  value_of_not_mem ⟨ks, vss⟩ key h

theorem Inv.insert_value_other {d d1 : Dictionary} (hd : d.Inv) {key other : String}
    (value : String) (hne : other ≠ key) (h : d.insert key value = .ok d1) :
    d1.value other = d.value other := by
  obtain ⟨ks, vss⟩ := d
  by_cases hk : key ∈ ks
  · obtain ⟨L, hL, _⟩ := hd.value_list hk
    rw [insert_of_mem _ key value L hk hL] at h
    cases h
    by_cases ho : other ∈ ks
    · have hf := find_ne_of_ne ks other key ho hne
      rw [value_mk_of_mem _ _ _ ho, value_mk_of_mem _ _ _ ho, vec_at_natCast, vec_at_natCast,
        List.getElem?_set_ne (Ne.symm hf)]
    · rw [value_mk_of_not_mem _ _ _ ho, value_mk_of_not_mem _ _ _ ho]
  · rw [insert_of_not_mem _ key value hk] at h
    cases h
    by_cases ho : other ∈ ks
    · have hlt : find ks other < vss.length := hd.1 ▸ (find_lt_iff ks other).mpr ho
      have ho1 : other ∈ ks ++ [key] := List.mem_append_left _ ho
      rw [value_mk_of_mem _ _ _ ho, value_mk_of_mem _ _ _ ho1, find_append_of_mem _ _ _ ho,
        vec_at_natCast, vec_at_natCast, List.getElem?_append_left hlt]
    · have ho1 : other ∉ ks ++ [key] := by simp [ho, hne]
      rw [value_mk_of_not_mem _ _ _ ho, value_mk_of_not_mem _ _ _ ho1]

theorem Inv.insert_all_value_other {d d1 : Dictionary} (hd : d.Inv) {key other : String}
    (value_list : List String) (hne : other ≠ key) (h : d.insert_all key value_list = .ok d1) :
    d1.value other = d.value other := by
  induction value_list generalizing d with
  | nil => cases h; rfl
  | cons v rest ih =>
    obtain ⟨d2, h2, hInv2, _⟩ := hd.insert key v
    simp only [Dictionary.insert_all, h2] at h
    rw [ih hInv2 h, hd.insert_value_other v hne h2]

/-! ## `insert` only ever extends a value list -/

theorem Inv.insert_value_extends {d d1 : Dictionary} (hd : d.Inv) {key : String}
    (value : String) (h : d.insert key value = .ok d1) (other : String) (L : List String)
    (hL : d.value other = .ok L) : ∃ M, d1.value other = .ok (L ++ M) := by
  by_cases hne : other = key
  · subst hne
    obtain ⟨d2, h2, hv, _⟩ := hd.insert_present other value L hL
    rw [h] at h2; cases h2
    exact ⟨[value], hv⟩
  · exact ⟨[], by rw [hd.insert_value_other value hne h, hL]; simp⟩

theorem Inv.insert_all_value_extends {d d1 : Dictionary} (hd : d.Inv) {key : String}
    (value_list : List String) (h : d.insert_all key value_list = .ok d1) (other : String)
    (L : List String) (hL : d.value other = .ok L) : ∃ M, d1.value other = .ok (L ++ M) := by
  induction value_list generalizing d L with
  | nil => cases h; exact ⟨[], by simpa using hL⟩
  | cons v rest ih =>
    obtain ⟨d2, h2, hInv2, _⟩ := hd.insert key v
    simp only [Dictionary.insert_all, h2] at h
    obtain ⟨M1, hM1⟩ := hd.insert_value_extends v h2 other L hL
    obtain ⟨M2, hM2⟩ := ih hInv2 h (L ++ M1) hM1
    exact ⟨M1 ++ M2, by simpa using hM2⟩

theorem Inv.insert_dictionary_loop_value_extends {d source d1 : Dictionary} (hd : d.Inv)
    (ks : List String) (h : d.insert_dictionary_loop source ks = .ok d1) (other : String)
    (L : List String) (hL : d.value other = .ok L) : ∃ M, d1.value other = .ok (L ++ M) := by
  induction ks generalizing d L with
  | nil => cases h; exact ⟨[], by simpa using hL⟩
  | cons k rest ih =>
    simp only [Dictionary.insert_dictionary_loop, insert_dictionary_step_eq] at h
    cases hv : source.value k with
    | error e => simp [hv] at h
    | ok value_list =>
      simp only [hv] at h
      obtain ⟨d2, h2, hInv2, _⟩ := hd.insert_all k value_list
      simp only [h2] at h
      obtain ⟨M1, hM1⟩ := hd.insert_all_value_extends value_list h2 other L hL
      obtain ⟨M2, hM2⟩ := ih hInv2 h (L ++ M1) hM1
      exact ⟨M1 ++ M2, by simpa using hM2⟩

/-! ## `insert(source)` with `source == this` -/

theorem forall₂_imp_of_mem_left {α β : Type} {R S : α → β → Prop} {l1 : List α} {l2 : List β}
    (h : List.Forall₂ R l1 l2) (himp : ∀ a b, a ∈ l1 → R a b → S a b) :
    List.Forall₂ S l1 l2 := by
  induction h with
  | nil => exact List.Forall₂.nil
  | cons hr _ ih =>
    exact List.Forall₂.cons (himp _ _ (List.mem_cons_self _ _) hr)
      (ih (fun a b ha => himp a b (List.mem_cons_of_mem _ ha)))

theorem Inv.insert_self_loop_eq {d : Dictionary} (hd : d.Inv) (ks : List String)
    (vss : List (List String)) (hn : ks.Nodup)
    (h : List.Forall₂ (fun key value_list => d.value key = .ok value_list) ks vss) :
    d.insert_self_loop ks = d.insert_pairs (pairs_of ks vss) := by
  induction ks generalizing d vss with
  | nil => cases h; simp [Dictionary.insert_self_loop, pairs_of, insert_pairs]
  | cons k rest ih =>
    cases h with
    | cons hv hrest =>
      rename_i value_list vss1
      have hk := List.nodup_cons.mp hn
      simp only [Dictionary.insert_self_loop, insert_self_step_eq, hv, pairs_of,
        insert_pairs_append, insert_pairs_map]
      obtain ⟨d1, h1, hInv1, _⟩ := hd.insert_all k value_list
      simp only [h1]
      apply ih hInv1 vss1 hk.2
      refine forall₂_imp_of_mem_left hrest ?_
      intro key vs hkey hval
      have hne : key ≠ k := fun e => hk.1 (e ▸ hkey)
      rw [hd.insert_all_value_other value_list hne h1, hval]

theorem Inv.insert_self_eq {d : Dictionary} (hd : d.Inv) :
    d.insert_self = d.insert_each_pair d :=
  hd.insert_self_loop_eq _ _ hd.2.1 hd.forall₂_value

/-! ## The index passed to `m_values.at` -/

theorem Inv.contains_lt {d : Dictionary} (hd : d.Inv) (key : String)
    (h : 0 ≤ d.contains key) : d.contains key < (d.m_values.length : Int) := by
  have hk := (contains_nonneg_iff d key).mp h
  have := (find_lt_iff d.m_keys key).mpr hk
  rw [contains_of_mem d key hk, ← hd.1]
  omega

theorem Inv.size_key {d : Dictionary} (hd : d.Inv) (key : String) :
    ∃ n, d.size_key key = .ok n := by
  by_cases h : key ∈ d.m_keys
  · obtain ⟨L, hL, _⟩ := hd.value_list h
    exact ⟨_, size_key_of_mem d key L h hL⟩
  · exact ⟨_, size_key_of_not_mem d key h⟩

theorem Inv.value_ne_out_of_range {d : Dictionary} (hd : d.Inv) (key : String) :
    d.value key ≠ .error .out_of_range := by
  by_cases h : key ∈ d.m_keys
  · obtain ⟨L, hL, _⟩ := hd.value h
    rw [hL]; simp
  · rw [value_of_not_mem d key h]; simp

/-! ## Every dictionary that satisfies the invariant can be built -/

theorem insert_last_key (ks : List String) (vss : List (List String)) (key value : String)
    (M : List String) (hk : key ∉ ks) (hlen : ks.length = vss.length) :
    (Dictionary.mk (ks ++ [key]) (vss ++ [M])).insert key value =
      .ok ⟨ks ++ [key], vss ++ [M ++ [value]]⟩ := by
  have hmem : key ∈ (Dictionary.mk (ks ++ [key]) (vss ++ [M])).m_keys := by simp
  have hL : (Dictionary.mk (ks ++ [key]) (vss ++ [M])).m_values[
      find (Dictionary.mk (ks ++ [key]) (vss ++ [M])).m_keys key]? = some M := by
    simp [find_append_self _ _ hk, hlen]
  rw [insert_of_mem _ key value M hmem hL]
  simp [find_append_self _ _ hk, hlen]

theorem Reachable.extend_last {ks : List String} {vss : List (List String)} {key : String}
    (hk : key ∉ ks) (hlen : ks.length = vss.length) (rest : List String) (M : List String)
    (h : (Dictionary.mk (ks ++ [key]) (vss ++ [M])).Reachable) :
    (Dictionary.mk (ks ++ [key]) (vss ++ [M ++ rest])).Reachable := by
  induction rest generalizing M with
  | nil => simpa using h
  | cons x xs ih =>
    have := ih (M ++ [x]) (Reachable.insert key x h (insert_last_key ks vss key x M hk hlen))
    simpa using this

theorem Inv.reachable_mk (ks : List String) :
    ∀ vss : List (List String), (Dictionary.mk ks vss).Inv → (Dictionary.mk ks vss).Reachable := by
  induction ks using List.reverseRecOn with
  | nil =>
    intro vss h
    have : vss = [] := List.length_eq_zero.mp (by simpa using h.1.symm)
    subst this
    exact Reachable.empty
  | append_singleton ks key ih =>
    intro vss h
    rcases List.eq_nil_or_concat vss with hv | ⟨vss1, L, hv⟩
    · subst hv
      have := h.1
      simp at this
    · subst hv
      obtain ⟨hlen, hnd, hne⟩ := h
      have hlen1 : ks.length = vss1.length := by simpa using hlen
      have hk : key ∉ ks := by
        have := List.nodup_append.mp hnd
        intro hmem
        exact this.2.2 hmem (List.mem_singleton_self key)
      have hInv1 : (Dictionary.mk ks vss1).Inv :=
        ⟨hlen1, (List.nodup_append.mp hnd).1, fun vs hvs => hne vs (by simp [hvs])⟩
      have hr1 := ih vss1 hInv1
      have hL : L ≠ [] := hne L (by simp)
      obtain ⟨v, rest, rfl⟩ := List.exists_cons_of_ne_nil hL
      have hr2 : (Dictionary.mk (ks ++ [key]) (vss1 ++ [[v]])).Reachable :=
        Reachable.insert key v hr1 (insert_of_not_mem ⟨ks, vss1⟩ key v hk)
      simpa using Reachable.extend_last hk hlen1 rest [v] hr2

/-- The invariant describes exactly the dictionaries that can be built. -/
theorem reachable_iff_inv (d : Dictionary) : d.Reachable ↔ d.Inv :=
  ⟨Reachable.inv, fun h => Inv.reachable_mk d.m_keys d.m_values h⟩

/-! ## The specification `first_occurrences` -/

theorem mem_first_occurrences (l : List String) (x : String) :
    x ∈ first_occurrences l ↔ x ∈ l := by
  induction l with
  | nil => simp [first_occurrences]
  | cons key rest ih =>
    by_cases h : x = key
    · simp [first_occurrences, h]
    · simp [first_occurrences, h, List.mem_filter, ih]

theorem nodup_first_occurrences (l : List String) : (first_occurrences l).Nodup := by
  induction l with
  | nil => simp [first_occurrences]
  | cons key rest ih =>
    simp only [first_occurrences, List.nodup_cons, List.mem_filter]
    exact ⟨fun h => by simpa using h.2, ih.filter _⟩

end Dictionary

/-! ## Offsets after `erase` -/

theorem find_eq_zero_iff (ks : List String) (key : String) :
    find ks key = 0 ↔ ks = [] ∨ ks.head? = some key := by
  cases ks with
  | nil => simp [find]
  | cons x xs => by_cases h : x = key <;> simp [find, h]

theorem mem_eraseIdx_find_of_ne (ks : List String) (key other : String) (hne : other ≠ key) :
    other ∈ ks.eraseIdx (find ks key) ↔ other ∈ ks := by
  induction ks with
  | nil => simp
  | cons x xs ih =>
    by_cases h : x = key
    · subst h
      simp [find, hne]
    · simp [find, h, ih]

theorem getElem?_eraseIdx_find_of_ne {α : Type} (ks : List String) (vss : List α)
    (key other : String) (hne : other ≠ key) (ho : other ∈ ks) :
    (vss.eraseIdx (find ks key))[find (ks.eraseIdx (find ks key)) other]? =
      vss[find ks other]? := by
  induction ks generalizing vss with
  | nil => simp at ho
  | cons x xs ih =>
    cases vss with
    | nil => simp
    | cons v vs =>
      by_cases h : x = key
      · subst h
        have h1 : ¬ x = other := fun e => hne e.symm
        simp [find, h1]
      · by_cases h2 : x = other
        · subst h2
          simp [find, hne]
        · have ho1 : other ∈ xs := by
            rcases List.mem_cons.mp ho with e | e
            · exact absurd e.symm h2
            · exact e
          simp [find, h, h2, ih vs ho1]

theorem eraseIdx_find_eq_erase (ks : List String) (key : String) :
    ks.eraseIdx (find ks key) = ks.erase key := by
  induction ks with
  | nil => simp
  | cons x xs ih =>
    by_cases h : x = key
    · simp [find, h]
    · simp [find, h, List.erase_cons_tail, ih]

theorem filter_ne_eraseIdx_find (ks : List String) (key : String) :
    (ks.eraseIdx (find ks key)).filter (fun x => x ≠ key) = ks.filter (fun x => x ≠ key) := by
  induction ks with
  | nil => simp
  | cons x xs ih =>
    by_cases h : x = key
    · simp [find, h]
    · simp only [find, h, if_false, List.eraseIdx_cons_succ, List.filter_cons, ih]

namespace Dictionary

/-! ## What `replace` and `remove` do to the other keys -/

theorem size_key_eq_of_value (d : Dictionary) (key : String) :
    d.size_key key =
      if key ∈ d.m_keys then
        match d.value key with
        | .ok L => .ok (L.length : Int)
        | .error e => .error e
      else .ok (-1) := by
  by_cases h : key ∈ d.m_keys
  · have hc := contains_of_mem d key h
    simp only [size_key, Dictionary.value, hc, h, if_true]
    have h0 : ¬ ((find d.m_keys key : Int) < 0) := by omega
    have h1 : (find d.m_keys key : Int) ≥ 0 := by omega
    simp only [h0, h1, if_false, if_true]
  · simp [size_key_of_not_mem d key h, h]

theorem size_key_eq_of_value_eq {d d1 : Dictionary} {key : String}
    (hv : d1.value key = d.value key) (hm : key ∈ d1.m_keys ↔ key ∈ d.m_keys) :
    d1.size_key key = d.size_key key := by
  rw [size_key_eq_of_value d1, size_key_eq_of_value d, hv]
  by_cases h : key ∈ d.m_keys
  · simp [h, hm.mpr h]
  · have : key ∉ d1.m_keys := fun e => h (hm.mp e)
    simp [h, this]

theorem Inv.replace_value_other {d d1 : Dictionary} (hd : d.Inv) {key other : String}
    (value : String) (hne : other ≠ key) (h : d.replace key value = .ok d1) :
    d1.value other = d.value other := by
  obtain ⟨ks, vss⟩ := d
  by_cases hk : key ∈ ks
  · obtain ⟨L, hL, _⟩ := hd.value_list hk
    rw [replace_of_mem _ key value L hk hL] at h
    cases h
    by_cases ho : other ∈ ks
    · have hf := find_ne_of_ne ks other key ho hne
      rw [value_mk_of_mem _ _ _ ho, value_mk_of_mem _ _ _ ho, vec_at_natCast, vec_at_natCast,
        List.getElem?_set_ne (Ne.symm hf)]
    · rw [value_mk_of_not_mem _ _ _ ho, value_mk_of_not_mem _ _ _ ho]
  · rw [replace_of_not_mem _ key value hk] at h
    cases h; rfl

theorem Inv.remove_value_other {d d1 : Dictionary} (hd : d.Inv) {key other : String}
    (hne : other ≠ key) (h : d.remove key = .ok d1) :
    d1.value other = d.value other := by
  obtain ⟨ks, vss⟩ := d
  by_cases hk : key ∈ ks
  · have hlt : find ks key < vss.length := hd.1 ▸ (find_lt_iff ks key).mpr hk
    rw [remove_of_mem _ key hk hlt] at h
    cases h
    by_cases ho : other ∈ ks
    · have ho1 : other ∈ ks.eraseIdx (find ks key) :=
        (mem_eraseIdx_find_of_ne ks key other hne).mpr ho
      rw [value_mk_of_mem _ _ _ ho, value_mk_of_mem _ _ _ ho1, vec_at_natCast, vec_at_natCast,
        getElem?_eraseIdx_find_of_ne ks vss key other hne ho]
    · have ho1 : other ∉ ks.eraseIdx (find ks key) :=
        fun e => ho ((mem_eraseIdx_find_of_ne ks key other hne).mp e)
      rw [value_mk_of_not_mem _ _ _ ho, value_mk_of_not_mem _ _ _ ho1]
  · rw [remove_of_not_mem _ key hk] at h
    cases h; rfl

theorem remove_keys_values (d d1 : Dictionary) (key : String) (hd : d.Inv)
    (h : d.remove key = .ok d1) :
    d1.m_keys = d.m_keys.eraseIdx (find d.m_keys key) ∧
      d1.m_values = d.m_values.eraseIdx (find d.m_keys key) := by
  by_cases hk : key ∈ d.m_keys
  · have hlt : find d.m_keys key < d.m_values.length := hd.1 ▸ (find_lt_iff d.m_keys key).mpr hk
    rw [remove_of_mem _ key hk hlt] at h
    cases h; exact ⟨rfl, rfl⟩
  · rw [remove_of_not_mem _ key hk] at h
    cases h
    have hf := (find_eq_length_iff d.m_keys key).mpr hk
    rw [hf, List.eraseIdx_of_length_le (Nat.le_refl _),
      List.eraseIdx_of_length_le (Nat.le_of_eq hd.1.symm)]
    exact ⟨rfl, rfl⟩

theorem contains_eq_zero_iff (d : Dictionary) (key : String) :
    d.contains key = 0 ↔ d.m_keys.head? = some key := by
  by_cases h : key ∈ d.m_keys
  · rw [contains_of_mem d key h]
    have := find_eq_zero_iff d.m_keys key
    constructor
    · intro e
      rcases this.mp (by omega) with h1 | h1
      · rw [h1] at h; simp at h
      · exact h1
    · intro e
      have := this.mpr (Or.inr e)
      omega
  · rw [contains_of_not_mem d key h]
    constructor
    · intro e; omega
    · intro e
      exact absurd (List.mem_of_mem_head? e) h

end Dictionary

/-! ## `TreeStructure`: the members of one object -/

theorem c_string_of_no_nul (s : String) (h : Char.ofNat 0 ∉ s.data) : c_string s = s := by
  have : s.data.takeWhile (fun c => decide (c ≠ Char.ofNat 0)) = s.data := by
    rw [List.takeWhile_eq_self_iff]
    intro c hc
    have : c ≠ Char.ofNat 0 := fun e => h (e ▸ hc)
    simpa using this
  simp only [c_string, this]

theorem c_string_no_nul (s : String) : Char.ofNat 0 ∉ (c_string s).data := by
  intro h
  have := List.mem_takeWhile_imp h
  simp at this

theorem dropWhile_nil_or_head {α : Type} (f : α → Bool) (l : List α) :
    l.dropWhile f = [] ∨ ∃ x, (l.dropWhile f).head? = some x ∧ f x = false := by
  induction l with
  | nil => simp
  | cons x xs ih =>
    cases hx : f x with
    | true => simpa [List.dropWhile_cons, hx] using ih
    | false => exact Or.inr ⟨x, by simp [List.dropWhile_cons, hx], hx⟩

/-- What `c_string` keeps of a text: a front part without NUL that either is
the whole text or is followed by a NUL character. -/
theorem c_string_front (s : String) :
    ∃ rest, s.data = (c_string s).data ++ rest ∧ Char.ofNat 0 ∉ (c_string s).data ∧
      (rest = [] ∨ rest.head? = some (Char.ofNat 0)) := by
  refine ⟨s.data.dropWhile (fun c => c ≠ Char.ofNat 0), ?_, c_string_no_nul s, ?_⟩
  · simp only [c_string]
    exact (List.takeWhile_append_dropWhile _ _).symm
  · rcases dropWhile_nil_or_head (fun c => decide (c ≠ Char.ofNat 0)) s.data with h | ⟨x, h1, h2⟩
    · exact Or.inl h
    · refine Or.inr ?_
      have : x = Char.ofNat 0 := by simpa using h2
      rw [h1, this]

namespace TreeStructure

variable {node_t : Type}

theorem get_child_of_empty (n : TreeStructure node_t) (i : Int) (h : n.m_children = []) :
    n.get_child i = .ok 0 := by
  simp [get_child, h]

theorem get_child_of_neg (n : TreeStructure node_t) (i : Int) (c : Nat)
    (h : n.m_children.getLast? = some c) (hi : i < 0) : n.get_child i = .ok c := by
  have hne : n.m_children ≠ [] := by
    intro e; rw [e] at h; simp at h
  have hlen : ¬ n.m_children.length < 1 := by
    have := List.length_pos.mpr hne
    omega
  simp [get_child, hlen, hi, h]

theorem get_child_of_lt (n : TreeStructure node_t) (k : Nat) (c : Nat)
    (h : n.m_children[k]? = some c) : n.get_child (k : Int) = .ok c := by
  have hk : k < n.m_children.length := (List.getElem?_eq_some.mp h).1
  have hlen : ¬ n.m_children.length < 1 := by omega
  have h0 : ¬ ((k : Int) < 0) := by omega
  have h1 : (k : Int) < (n.m_children.length : Int) := by omega
  simp only [get_child, hlen, h0, h1, if_false, if_true]
  exact vec_at_of_getElem? _ _ _ h

theorem get_child_of_ge (n : TreeStructure node_t) (i : Int)
    (h : (n.m_children.length : Int) ≤ i) : n.get_child i = .ok 0 := by
  have h0 : ¬ (i < 0) := by omega
  have h1 : ¬ (i < (n.m_children.length : Int)) := by omega
  simp [get_child, h0, h1]

end TreeStructure

namespace Heap

variable {node_t : Type}

/-! ## `get_value(node_t)` -/

theorem get_value_loop_eq [DecidableEq node_t] (h : Heap node_t) (node_type : node_t)
    (ptrs : List Nat) (children : List (TreeStructure node_t))
    (hlive : List.Forall₂ (fun ptr child => h.deref ptr = some child) ptrs children) :
    h.get_value_loop node_type ptrs =
      .ok ((children.find? (fun c => decide (c.get_type = node_type))).bind
        TreeStructure.get_value) := by
  induction hlive with
  | nil => simp [get_value_loop]
  | @cons ptr child ptrs1 children1 hd _ ih =>
    by_cases ht : child.get_type = node_type
    · simp [get_value_loop, hd, ht, List.find?_cons]
    · simp [get_value_loop, hd, ht, List.find?_cons, ih]

theorem get_value_loop_congr [DecidableEq node_t] (h1 h2 : Heap node_t) (node_type : node_t)
    (ptrs : List Nat)
    (hsame : ∀ ptr ∈ ptrs,
      (h2.deref ptr).map (fun c => (c.get_type, c.get_value)) =
        (h1.deref ptr).map (fun c => (c.get_type, c.get_value))) :
    h2.get_value_loop node_type ptrs = h1.get_value_loop node_type ptrs := by
  induction ptrs with
  | nil => simp [get_value_loop]
  | cons ptr rest ih =>
    have hp := hsame ptr (List.mem_cons_self _ _)
    have ih1 := ih (fun q hq => hsame q (List.mem_cons_of_mem _ hq))
    cases e1 : h1.deref ptr with
    | none =>
      cases e2 : h2.deref ptr with
      | none => simp [get_value_loop, e1, e2]
      | some c2 => simp [e1, e2] at hp
    | some c1 =>
      cases e2 : h2.deref ptr with
      | none => simp [e1, e2] at hp
      | some c2 =>
        simp only [e1, e2, Option.map_some', Option.some.injEq, Prod.mk.injEq] at hp
        simp only [get_value_loop, e1, e2, hp.1, hp.2, ih1]

theorem find?_append_cons_of_first {α : Type} (f : α → Bool) (pre post : List α) (c : α)
    (hpre : ∀ x ∈ pre, f x = false) (hc : f c = true) :
    (pre ++ c :: post).find? f = some c := by
  induction pre with
  | nil => simp [List.find?_cons, hc]
  | cons x xs ih =>
    have hx := hpre x (List.mem_cons_self _ _)
    simp [List.find?_cons, hx, ih (fun y hy => hpre y (List.mem_cons_of_mem _ hy))]

end Heap

namespace TreeStructure

variable {node_t : Type}

/-! ## Members that `add_child` and the attribute functions leave alone -/

theorem get_value_foldl_add_child (n : TreeStructure node_t) (cs : List Nat) :
    (cs.foldl add_child n).get_value = n.get_value := by
  induction cs generalizing n with
  | nil => rfl
  | cons c rest ih => simp only [List.foldl_cons, ih]; rfl

theorem get_children_foldl_add_child (n : TreeStructure node_t) (cs : List Nat) :
    (cs.foldl add_child n).get_children = n.get_children ++ cs := by
  induction cs generalizing n with
  | nil => simp
  | cons c rest ih => simp only [List.foldl_cons, ih]; simp [get_children, add_child]

theorem is_leaf_iff (n : TreeStructure node_t) : n.is_leaf = true ↔ n.m_children = [] := by
  cases h : n.m_children with
  | nil => simp [is_leaf, h]
  | cons c rest => simp [is_leaf, h]

theorem add_attribute_of_insert (n : TreeStructure node_t) (a v : String) (d1 : Dictionary)
    (h : n.m_attributes.insert a v = .ok d1) :
    n.add_attribute a v =
      .ok ⟨n.m_level, n.m_node_type, n.m_children, d1, n.m_value, n.m_value_len⟩ := by
  simp [add_attribute, h]

theorem replace_attribute_of_replace (n : TreeStructure node_t) (a v : String) (d1 : Dictionary)
    (h : n.m_attributes.replace a v = .ok d1) :
    n.replace_attribute a v =
      .ok ⟨n.m_level, n.m_node_type, n.m_children, d1, n.m_value, n.m_value_len⟩ := by
  simp [replace_attribute, h]

end TreeStructure

namespace Heap

variable {node_t : Type}

theorem ne_zero_of_deref {h : Heap node_t} {p : Nat} {n : TreeStructure node_t}
    (hp : h.deref p = some n) : p ≠ 0 := by
  intro e
  simp [deref, e] at hp

theorem call_of_deref (h : Heap node_t) (p : Nat) (n n1 : TreeStructure node_t)
    (f : TreeStructure node_t → Except Fault (TreeStructure node_t))
    (hp : h.deref p = some n) (hf : f n = .ok n1) : h.call p f = .ok (h.store p n1) := by
  simp [call, hp, hf]

theorem deref_store_self (h : Heap node_t) (p : Nat) (n : TreeStructure node_t) (hp : p ≠ 0) :
    (h.store p n).deref p = some n := by
  simp [deref, store, hp]

theorem store_of_ne (h : Heap node_t) (p q : Nat) (n : TreeStructure node_t) (hq : q ≠ p) :
    (h.store p n) q = h q := by
  simp [store, hq]

end Heap

namespace TreeStructure

variable {node_t : Type}

/-! ## The attribute dictionary of a node satisfies the invariant -/

theorem new_attributes_inv (t : node_t) (d : Int) : (new t d).m_attributes.Inv :=
  Dictionary.Inv.empty

theorem new_with_value_attributes_inv (t : node_t) (d : Int) (v : String) :
    (new_with_value t d v).m_attributes.Inv :=
  Dictionary.Inv.empty

theorem add_attribute_attributes_inv (n n1 : TreeStructure node_t) (a v : String)
    (hn : n.m_attributes.Inv) (h : n.add_attribute a v = .ok n1) : n1.m_attributes.Inv := by
  obtain ⟨d1, h1, hInv, _⟩ := hn.insert a v
  rw [add_attribute_of_insert n a v d1 h1] at h
  cases h; exact hInv

theorem replace_attribute_attributes_inv (n n1 : TreeStructure node_t) (a v : String)
    (hn : n.m_attributes.Inv) (h : n.replace_attribute a v = .ok n1) : n1.m_attributes.Inv := by
  obtain ⟨d1, h1, hInv, _⟩ := hn.replace a v
  rw [replace_attribute_of_replace n a v d1 h1] at h
  cases h; exact hInv

end TreeStructure

namespace Heap

variable {node_t : Type}

/-! ## The nodes owned through a pointer -/

theorem owned_each_cons_eq_some (f : Nat → Option (List Nat)) (c : Nat) (rest : List Nat)
    (l : List Nat) :
    owned_each f (c :: rest) = some l ↔
      ∃ l1 l2, f c = some l1 ∧ owned_each f rest = some l2 ∧ l = l1 ++ l2 := by
  simp only [owned_each]
  cases h1 : f c with
  | none => simp
  | some l1 =>
    cases h2 : owned_each f rest with
    | none => simp
    | some l2 =>
      simp only [Option.some.injEq]
      constructor
      · intro e; exact ⟨l1, l2, rfl, rfl, e.symm⟩
      · rintro ⟨a, b, ha, hb, e⟩; rw [e, ha, hb]

theorem owned_succ_eq_some (fuel : Nat) (h : Heap node_t) (p : Nat) (L : List Nat)
    (hp : p ≠ 0) :
    owned (fuel + 1) h p = some L ↔
      ∃ obj l, h p = some obj ∧ owned_each (owned fuel h) obj.m_children = some l ∧
        L = l ++ [p] := by
  constructor
  · intro e
    cases h1 : h p with
    | none => simp [owned, hp, h1] at e
    | some obj =>
      cases h2 : owned_each (owned fuel h) obj.m_children with
      | none => simp [owned, hp, h1, h2] at e
      | some l =>
        simp only [owned, hp, h1, h2, if_false, Option.some.injEq] at e
        exact ⟨obj, l, rfl, h2, e.symm⟩
  · rintro ⟨obj, l, ho, hl, e⟩
    simp [owned, hp, ho, hl, e]

theorem owned_zero_ptr (fuel : Nat) (h : Heap node_t) : owned (fuel + 1) h 0 = some [] := by
  simp [owned]

theorem owned_each_congr (f g : Nat → Option (List Nat)) (cs : List Nat) (l : List Nat)
    (hf : owned_each f cs = some l)
    (hfg : ∀ c lc, f c = some lc → (∀ q ∈ lc, q ∈ l) → g c = some lc) :
    owned_each g cs = some l := by
  induction cs generalizing l with
  | nil => simpa [owned_each] using hf
  | cons c rest ih =>
    obtain ⟨l1, l2, h1, h2, e⟩ := (owned_each_cons_eq_some f c rest l).mp hf
    subst e
    have hg1 := hfg c l1 h1 (fun q hq => List.mem_append_left _ hq)
    have hg2 := ih l2 h2 (fun c' lc hc hsub =>
      hfg c' lc hc (fun q hq => List.mem_append_right _ (hsub q hq)))
    exact (owned_each_cons_eq_some g c rest _).mpr ⟨l1, l2, hg1, hg2, rfl⟩

/-- The nodes owned through a pointer are found by reading the heap at these
nodes only. -/
theorem owned_congr (fuel : Nat) (h h1 : Heap node_t) (p : Nat) (L : List Nat)
    (hL : owned fuel h p = some L) (hsame : ∀ q ∈ L, h1 q = h q) :
    owned fuel h1 p = some L := by
  induction fuel generalizing p L with
  | zero => simp [owned] at hL
  | succ fuel ih =>
    by_cases hp : p = 0
    · subst hp
      rw [owned_zero_ptr] at hL ⊢
      exact hL
    · obtain ⟨obj, l, ho, hl, e⟩ := (owned_succ_eq_some fuel h p L hp).mp hL
      subst e
      refine (owned_succ_eq_some fuel h1 p _ hp).mpr ⟨obj, l, ?_, ?_, rfl⟩
      · rw [hsame p (by simp), ho]
      · apply owned_each_congr _ _ _ _ hl
        intro c lc hc hsub
        exact ih c lc hc (fun q hq => hsame q (List.mem_append_left _ (hsub q hq)))

theorem owned_each_live (f : Nat → Option (List Nat)) (P : Nat → Prop) (cs : List Nat)
    (l : List Nat) (hf : owned_each f cs = some l)
    (hP : ∀ c lc, f c = some lc → ∀ q ∈ lc, P q) : ∀ q ∈ l, P q := by
  induction cs generalizing l with
  | nil =>
    have : l = [] := by simpa [owned_each] using hf.symm
    subst this
    simp
  | cons c rest ih =>
    obtain ⟨l1, l2, h1, h2, e⟩ := (owned_each_cons_eq_some f c rest l).mp hf
    subst e
    intro q hq
    rcases List.mem_append.mp hq with hq1 | hq2
    · exact hP c l1 h1 q hq1
    · exact ih l2 h2 q hq2

/-- Every node owned through a pointer exists, at an address that is not 0. -/
theorem owned_live (fuel : Nat) (h : Heap node_t) (p : Nat) (L : List Nat)
    (hL : owned fuel h p = some L) : ∀ q ∈ L, q ≠ 0 ∧ ∃ obj, h q = some obj := by
  induction fuel generalizing p L with
  | zero => simp [owned] at hL
  | succ fuel ih =>
    by_cases hp : p = 0
    · subst hp
      rw [owned_zero_ptr] at hL
      cases hL
      simp
    · obtain ⟨obj, l, ho, hl, e⟩ := (owned_succ_eq_some fuel h p L hp).mp hL
      subst e
      intro q hq
      rcases List.mem_append.mp hq with hq1 | hq2
      · exact owned_each_live _ _ _ _ hl (fun c lc hc => ih c lc hc) q hq1
      · have : q = p := by simpa using hq2
        subst this
        exact ⟨hp, obj, ho⟩

/-! ## The destructor on a tree -/

theorem free_all_nil (h : Heap node_t) : h.free_all [] = h := by
  funext q; simp [free_all]

theorem free_all_append (h : Heap node_t) (l1 l2 : List Nat) :
    (h.free_all l1).free_all l2 = h.free_all (l1 ++ l2) := by
  funext q
  by_cases h1 : q ∈ l1 <;> by_cases h2 : q ∈ l2 <;> simp [free_all, h1, h2]

theorem free_free_all (h : Heap node_t) (l : List Nat) (p : Nat) :
    (h.free_all l).free p = h.free_all (l ++ [p]) := by
  funext q
  by_cases h1 : q ∈ l <;> by_cases h2 : q = p <;> simp [free_all, free, h1, h2]

theorem events_for_append (h : Heap node_t) (l1 l2 : List Nat) :
    h.events_for (l1 ++ l2) = h.events_for l1 ++ h.events_for l2 := by
  induction l1 with
  | nil => simp [events_for]
  | cons p rest ih => simp [events_for, ih]

theorem events_for_congr (h h1 : Heap node_t) (l : List Nat) (hsame : ∀ q ∈ l, h1 q = h q) :
    h1.events_for l = h.events_for l := by
  induction l with
  | nil => simp [events_for]
  | cons p rest ih =>
    simp only [events_for, events_of, hsame p (List.mem_cons_self _ _),
      ih (fun q hq => hsame q (List.mem_cons_of_mem _ hq))]

theorem delete_each_eq (fuel : Nat)
    (hdel : ∀ (h : Heap node_t) (p : Nat) (L : List Nat), owned fuel h p = some L → L.Nodup →
      delete fuel h p = some (.ok (h.free_all L, h.events_for L)))
    (cs : List Nat) (h : Heap node_t) (l : List Nat)
    (hl : owned_each (owned fuel h) cs = some l) (hn : l.Nodup) :
    delete_each (delete fuel) h cs = some (.ok (h.free_all l, h.events_for l)) := by
  induction cs generalizing h l with
  | nil =>
    have : l = [] := by simpa [owned_each] using hl.symm
    subst this
    simp [delete_each, free_all_nil, events_for]
  | cons c rest ih =>
    obtain ⟨l1, l2, h1, h2, e⟩ := (owned_each_cons_eq_some _ c rest l).mp hl
    subst e
    obtain ⟨hn1, hn2, hdisj⟩ := List.nodup_append.mp hn
    have hsame : ∀ q ∈ l2, (h.free_all l1) q = h q := by
      intro q hq
      have : q ∉ l1 := fun hq1 => hdisj hq1 hq
      simp [free_all, this]
    have h2' : owned_each (owned fuel (h.free_all l1)) rest = some l2 := by
      apply owned_each_congr _ _ _ _ h2
      intro c' lc hc hsub
      exact owned_congr fuel h _ c' lc hc (fun q hq => hsame q (hsub q hq))
    simp only [delete_each, hdel h c l1 h1 hn1, ih (h.free_all l1) l2 h2' hn2,
      free_all_append, events_for_append, events_for_congr h _ l2 hsame]

/-- On a tree, `delete` returns, releases exactly the nodes owned through the
pointer, and releases them in post-order. -/
theorem delete_eq (fuel : Nat) (h : Heap node_t) (p : Nat) (L : List Nat)
    (hL : owned fuel h p = some L) (hn : L.Nodup) :
    delete fuel h p = some (.ok (h.free_all L, h.events_for L)) := by
  induction fuel generalizing h p L with
  | zero => simp [owned] at hL
  | succ fuel ih =>
    by_cases hp : p = 0
    · subst hp
      rw [owned_zero_ptr] at hL
      cases hL
      simp [delete, free_all_nil, events_for]
    · obtain ⟨obj, l, ho, hl, e⟩ := (owned_succ_eq_some fuel h p L hp).mp hL
      subst e
      obtain ⟨hn1, _, _⟩ := List.nodup_append.mp hn
      have hch := delete_each_eq fuel (fun h p L => ih h p L) obj.m_children h l hl hn1
      simp only [delete, hp, if_false, ho, hch, free_free_all, events_for_append, events_for,
        events_of, List.append_nil]

/-! ## The events of a destruction -/

theorem mem_own_events (p : Nat) (obj : TreeStructure node_t) (e : Event) :
    e ∈ own_events p obj ↔
      e = Event.attributes_deleted p ∨ (e = Event.value_deleted p ∧ obj.m_value ≠ none) ∨
        e = Event.node_deleted p := by
  cases hv : obj.m_value with
  | none => simp [own_events, hv]
  | some s => simp [own_events, hv]

theorem nodup_own_events (p : Nat) (obj : TreeStructure node_t) : (own_events p obj).Nodup := by
  cases hv : obj.m_value with
  | none => simp [own_events, hv]
  | some s => simp [own_events, hv]

theorem filterMap_own_events (p : Nat) (obj : TreeStructure node_t) :
    (own_events p obj).filterMap Event.deleted_node = [p] := by
  cases hv : obj.m_value with
  | none => simp [own_events, hv, Event.deleted_node]
  | some s => simp [own_events, hv, Event.deleted_node]

theorem node_of_mem_events_of (h : Heap node_t) (p : Nat) (e : Event)
    (he : e ∈ h.events_of p) : e.node = p := by
  simp only [events_of] at he
  cases ho : h p with
  | none => simp [ho] at he
  | some obj =>
    simp only [ho] at he
    rcases (mem_own_events p obj e).mp he with h1 | ⟨h1, _⟩ | h1 <;> simp [h1, Event.node]

theorem mem_events_for (h : Heap node_t) (l : List Nat) (e : Event) :
    e ∈ h.events_for l ↔ ∃ q ∈ l, e ∈ h.events_of q := by
  induction l with
  | nil => simp [events_for]
  | cons p rest ih => simp [events_for, ih]

theorem node_of_mem_events_for (h : Heap node_t) (l : List Nat) (e : Event)
    (he : e ∈ h.events_for l) : e.node ∈ l := by
  obtain ⟨q, hq, heq⟩ := (mem_events_for h l e).mp he
  rw [node_of_mem_events_of h q e heq]
  exact hq

theorem nodup_events_for (h : Heap node_t) (l : List Nat) (hn : l.Nodup) :
    (h.events_for l).Nodup := by
  induction l with
  | nil => simp [events_for]
  | cons p rest ih =>
    obtain ⟨hp, hrest⟩ := List.nodup_cons.mp hn
    simp only [events_for]
    refine List.nodup_append.mpr ⟨?_, ih hrest, ?_⟩
    · simp only [events_of]
      cases ho : h p with
      | none => simp
      | some obj => exact nodup_own_events p obj
    · intro e he1 he2
      have h1 := node_of_mem_events_of h p e he1
      have h2 := node_of_mem_events_for h rest e he2
      exact hp (h1 ▸ h2)

theorem filterMap_events_for (h : Heap node_t) (l : List Nat)
    (hlive : ∀ q ∈ l, ∃ obj, h q = some obj) :
    (h.events_for l).filterMap Event.deleted_node = l := by
  induction l with
  | nil => simp [events_for]
  | cons p rest ih =>
    obtain ⟨obj, ho⟩ := hlive p (List.mem_cons_self _ _)
    simp only [events_for, events_of, ho, List.filterMap_append, filterMap_own_events,
      ih (fun q hq => hlive q (List.mem_cons_of_mem _ hq))]
    rfl

theorem map_node_deleted_sublist (h : Heap node_t) (l : List Nat)
    (hlive : ∀ q ∈ l, ∃ obj, h q = some obj) :
    (l.map Event.node_deleted).Sublist (h.events_for l) := by
  induction l with
  | nil => simp [events_for]
  | cons p rest ih =>
    obtain ⟨obj, ho⟩ := hlive p (List.mem_cons_self _ _)
    have h1 : [Event.node_deleted p].Sublist (h.events_of p) := by
      rw [List.singleton_sublist]
      simp only [events_of, ho]
      exact (mem_own_events p obj _).mpr (Or.inr (Or.inr rfl))
    have h2 := ih (fun q hq => hlive q (List.mem_cons_of_mem _ hq))
    simpa [events_for] using h1.append h2

theorem mem_events_for_of_live (h : Heap node_t) (l : List Nat) (q : Nat)
    (obj : TreeStructure node_t) (hq : q ∈ l) (ho : h q = some obj) :
    Event.node_deleted q ∈ h.events_for l ∧ Event.attributes_deleted q ∈ h.events_for l ∧
      (Event.value_deleted q ∈ h.events_for l ↔ obj.m_value ≠ none) := by
  have hown : ∀ e, e ∈ own_events q obj → e ∈ h.events_for l := by
    intro e he
    exact (mem_events_for h l e).mpr ⟨q, hq, by simpa [events_of, ho] using he⟩
  refine ⟨hown _ ((mem_own_events q obj _).mpr (Or.inr (Or.inr rfl))),
    hown _ ((mem_own_events q obj _).mpr (Or.inl rfl)), ?_, ?_⟩
  · intro he
    obtain ⟨q1, _, heq⟩ := (mem_events_for h l _).mp he
    have hq1 := node_of_mem_events_of h q1 _ heq
    simp only [Event.node] at hq1
    subst hq1
    simp only [events_of, ho] at heq
    rcases (mem_own_events q obj _).mp heq with h1 | ⟨_, h1⟩ | h1
    · cases h1
    · exact h1
    · cases h1
  · intro hv
    exact hown _ ((mem_own_events q obj _).mpr (Or.inr (Or.inl ⟨rfl, hv⟩)))

/-! ## Children come before their parent -/

theorem owned_each_child (f : Nat → Option (List Nat)) (cs : List Nat) (l : List Nat)
    (hf : owned_each f cs = some l) :
    (∀ c ∈ cs, ∃ lc, f c = some lc ∧ lc.Sublist l) ∧
      (∀ q ∈ l, ∃ c ∈ cs, ∃ lc, f c = some lc ∧ lc.Sublist l ∧ q ∈ lc) := by
  induction cs generalizing l with
  | nil =>
    have : l = [] := by simpa [owned_each] using hf.symm
    subst this
    simp
  | cons c rest ih =>
    obtain ⟨l1, l2, h1, h2, e⟩ := (owned_each_cons_eq_some f c rest l).mp hf
    subst e
    obtain ⟨ih1, ih2⟩ := ih l2 h2
    constructor
    · intro c' hc'
      rcases List.mem_cons.mp hc' with e | hm
      · subst e
        exact ⟨l1, h1, List.sublist_append_left _ _⟩
      · obtain ⟨lc, hlc, hsub⟩ := ih1 c' hm
        exact ⟨lc, hlc, hsub.trans (List.sublist_append_right _ _)⟩
    · intro q hq
      rcases List.mem_append.mp hq with hq1 | hq2
      · exact ⟨c, List.mem_cons_self _ _, l1, h1, List.sublist_append_left _ _, hq1⟩
      · obtain ⟨c', hc', lc, hlc, hsub, hqc⟩ := ih2 q hq2
        exact ⟨c', List.mem_cons_of_mem _ hc', lc, hlc,
          hsub.trans (List.sublist_append_right _ _), hqc⟩

theorem owned_self_mem (fuel : Nat) (h : Heap node_t) (p : Nat) (L : List Nat)
    (hL : owned fuel h p = some L) (hp : p ≠ 0) : p ∈ L := by
  cases fuel with
  | zero => simp [owned] at hL
  | succ fuel =>
    obtain ⟨obj, l, _, _, e⟩ := (owned_succ_eq_some fuel h p L hp).mp hL
    subst e
    simp

/-- In the post-order of the nodes owned through a pointer, a child stands
before its parent. -/
theorem owned_child_before (fuel : Nat) (h : Heap node_t) (p : Nat) (L : List Nat)
    (hL : owned fuel h p = some L) (q : Nat) (obj : TreeStructure node_t) (hq : q ∈ L)
    (ho : h q = some obj) (c : Nat) (hc : c ∈ obj.m_children) (hc0 : c ≠ 0) :
    [c, q].Sublist L := by
  induction fuel generalizing p L with
  | zero => simp [owned] at hL
  | succ fuel ih =>
    by_cases hp : p = 0
    · subst hp
      rw [owned_zero_ptr] at hL
      cases hL
      simp at hq
    · obtain ⟨objp, l, hop, hl, e⟩ := (owned_succ_eq_some fuel h p L hp).mp hL
      subst e
      obtain ⟨hch1, hch2⟩ := owned_each_child _ _ _ hl
      rcases List.mem_append.mp hq with hq1 | hq2
      · obtain ⟨c', _, lc, hlc, hsub, hqc⟩ := hch2 q hq1
        exact ((ih c' lc hlc hqc).trans hsub).trans (List.sublist_append_left _ _)
      · have : q = p := by simpa using hq2
        subst this
        rw [hop] at ho
        cases ho
        obtain ⟨lc, hlc, hsub⟩ := hch1 c hc
        have hcl : c ∈ l := hsub.subset (owned_self_mem fuel h c lc hlc hc0)
        have h1 : [c].Sublist l := List.singleton_sublist.mpr hcl
        simpa using h1.append (List.Sublist.refl [q])

end Heap

namespace Heap

/-! ## Outside the trees -/

/-- A node that has been added twice as a child is deleted twice: the second
`delete` finds no object. -/
theorem delete_shared_child :
    delete 3 ((Heap.empty.store 1 (((TreeStructure.new (0 : Nat) 0).add_child 2).add_child 2)).store
      2 (TreeStructure.new (0 : Nat) 1)) 1 = some (.error .undefined_behaviour) ∧
    owned 3 ((Heap.empty.store 1 (((TreeStructure.new (0 : Nat) 0).add_child 2).add_child 2)).store
      2 (TreeStructure.new (0 : Nat) 1)) 1 = some [2, 2, 1] :=
  ⟨rfl, rfl⟩

/-- A node that has been added as a child of itself: the destructor calls
itself again and again. -/
theorem delete_own_child :
    delete 50 (Heap.empty.store 1 ((TreeStructure.new (0 : Nat) 0).add_child 1)) 1 = none ∧
    owned 50 (Heap.empty.store 1 ((TreeStructure.new (0 : Nat) 0).add_child 1)) 1 = none :=
  ⟨rfl, rfl⟩

end Heap

namespace Dictionary

/-! ## Claims -/

/-- C1. Every dictionary that can be built from the empty one by `insert(key,
value)`, `insert(source)` (from another reachable dictionary, or from the
dictionary itself), `remove(key)` and `replace(key, value)` has as many value
lists as keys, has no key twice, and has no empty value list. -/
theorem reachable_invariant (d : Dictionary) (h : d.Reachable) :
    d.keys.length = d.values.length ∧ d.keys.Nodup ∧ ∀ vs ∈ d.values, vs ≠ [] :=
  h.inv

/-- C1, on the dictionary left by `insert("a","1")`, `insert("b","2")`,
`insert("a","3")`, `remove("b")`, `replace("a","4")`, `insert("c","5")`. -/
theorem reachable_invariant_witness :
    (Dictionary.mk ["a", "c"] [["4"], ["5"]]).Reachable ∧
    ((Dictionary.mk ["a", "c"] [["4"], ["5"]]).keys.length =
        (Dictionary.mk ["a", "c"] [["4"], ["5"]]).values.length ∧
      (Dictionary.mk ["a", "c"] [["4"], ["5"]]).keys.Nodup ∧
      ∀ vs ∈ (Dictionary.mk ["a", "c"] [["4"], ["5"]]).values, vs ≠ []) :=
  have hr : (Dictionary.mk ["a", "c"] [["4"], ["5"]]).Reachable :=
    Reachable.insert "c" "5"
      (Reachable.replace "a" "4"
        (Reachable.remove "b"
          (Reachable.insert "a" "3"
            (Reachable.insert "b" "2"
              (Reachable.insert "a" "1" Reachable.empty
                (rfl : Dictionary.empty.insert "a" "1" = .ok ⟨["a"], [["1"]]⟩))
              (rfl : (Dictionary.mk ["a"] [["1"]]).insert "b" "2" =
                .ok ⟨["a", "b"], [["1"], ["2"]]⟩))
            (rfl : (Dictionary.mk ["a", "b"] [["1"], ["2"]]).insert "a" "3" =
              .ok ⟨["a", "b"], [["1", "3"], ["2"]]⟩))
          (rfl : (Dictionary.mk ["a", "b"] [["1", "3"], ["2"]]).remove "b" =
            .ok ⟨["a"], [["1", "3"]]⟩))
        (rfl : (Dictionary.mk ["a"] [["1", "3"]]).replace "a" "4" = .ok ⟨["a"], [["4"]]⟩))
      (rfl : (Dictionary.mk ["a"] [["4"]]).insert "c" "5" = .ok ⟨["a", "c"], [["4"], ["5"]]⟩)
  ⟨hr, reachable_invariant _ hr⟩

/-- C2. `insert(key, value)` leaves `keys()` as it is when the key is stored
and appends the key at the end otherwise; `replace(key, value)` leaves
`keys()` as it is.  Both calls return on every dictionary that satisfies the
invariant.  Any sequence of `insert` and `replace` calls on the empty
dictionary returns, and `keys()` is then the distinct inserted keys in order
of first insertion. -/
theorem insertion_order_preserved :
    (∀ (d d1 : Dictionary) (key value : String), d.insert key value = .ok d1 →
      d1.keys = if key ∈ d.keys then d.keys else d.keys ++ [key]) ∧
    (∀ (d d1 : Dictionary) (key value : String), d.replace key value = .ok d1 →
      d1.keys = d.keys) ∧
    (∀ (d : Dictionary) (key value : String), d.Inv →
      (∃ d1, d.insert key value = .ok d1) ∧ (∃ d1, d.replace key value = .ok d1)) ∧
    (∀ us : List Update, ∃ d1, Dictionary.empty.apply_updates us = .ok d1 ∧
      d1.keys = first_occurrences (us.filterMap Update.inserted_key)) := by
  refine ⟨insert_keys, replace_keys, ?_, ?_⟩
  · intro d key value hd
    obtain ⟨d1, h1, _⟩ := hd.insert key value
    obtain ⟨d2, h2, _⟩ := hd.replace key value
    exact ⟨⟨d1, h1⟩, ⟨d2, h2⟩⟩
  · intro us
    obtain ⟨d1, h1, _, hk⟩ := Inv.empty.apply_updates us
    refine ⟨d1, h1, ?_⟩
    simpa [Dictionary.empty, keys] using hk

/-- C2 on `{a: [1], b: [2]}`: inserting under the stored key `a` and
replacing the values of `b` keep the keys `[a, b]`, inserting the new key `c`
gives `[a, b, c]`, and both calls return; and on a sequence of seven calls
from the empty dictionary that first inserts `b`, then `a`, then `c`. -/
theorem insertion_order_preserved_witness :
    (Dictionary.mk ["a", "b"] [["1", "3"], ["2"]]).keys = ["a", "b"] ∧
    (Dictionary.mk ["a", "b", "c"] [["1"], ["2"], ["3"]]).keys = ["a", "b", "c"] ∧
    (Dictionary.mk ["a", "b"] [["1"], ["4"]]).keys = ["a", "b"] ∧
    ((∃ d1, (Dictionary.mk ["a", "b"] [["1"], ["2"]]).insert "c" "3" = .ok d1) ∧
      (∃ d1, (Dictionary.mk ["a", "b"] [["1"], ["2"]]).replace "c" "3" = .ok d1)) ∧
    (∃ d1, Dictionary.empty.apply_updates
        [.insert "b" "1", .insert "a" "2", .replace "c" "3", .insert "b" "4", .replace "a" "5",
          .insert "c" "6", .insert "a" "7"] = .ok d1 ∧
      d1.keys = ["b", "a", "c"]) :=
  ⟨insertion_order_preserved.1 ⟨["a", "b"], [["1"], ["2"]]⟩ ⟨["a", "b"], [["1", "3"], ["2"]]⟩
      "a" "3" rfl,
    insertion_order_preserved.1 ⟨["a", "b"], [["1"], ["2"]]⟩
      ⟨["a", "b", "c"], [["1"], ["2"], ["3"]]⟩ "c" "3" rfl,
    insertion_order_preserved.2.1 ⟨["a", "b"], [["1"], ["2"]]⟩ ⟨["a", "b"], [["1"], ["4"]]⟩
      "b" "4" rfl,
    insertion_order_preserved.2.2.1 ⟨["a", "b"], [["1"], ["2"]]⟩ "c" "3" (by decide),
    insertion_order_preserved.2.2.2
      [.insert "b" "1", .insert "a" "2", .replace "c" "3", .insert "b" "4", .replace "a" "5",
        .insert "c" "6", .insert "a" "7"]⟩

/-- C3. On a dictionary that satisfies the invariant `insert(key, value)`
returns; if the key was absent, `value(key)` is then `[value]` and
`size(key)` is 1; if the key held the list `L`, `value(key)` is then
`L ++ [value]` and `size(key)` is `length L + 1`.  Inserting `v1` and then
`v2` under an absent key gives `value(key) == [v1, v2]` and `size(key) == 2`. -/
theorem multi_value_accumulation :
    (∀ (d : Dictionary) (key value : String), d.Inv → key ∉ d.keys →
      ∃ d1, d.insert key value = .ok d1 ∧ d1.value key = .ok [value] ∧
        d1.size_key key = .ok 1) ∧
    (∀ (d : Dictionary) (key value : String) (L : List String), d.Inv →
      d.value key = .ok L →
      ∃ d1, d.insert key value = .ok d1 ∧ d1.value key = .ok (L ++ [value]) ∧
        d1.size_key key = .ok ((L.length : Int) + 1)) ∧
    (∀ (d : Dictionary) (key v1 v2 : String), d.Inv → key ∉ d.keys →
      ∃ d1 d2, d.insert key v1 = .ok d1 ∧ d1.insert key v2 = .ok d2 ∧
        d2.value key = .ok [v1, v2] ∧ d2.size_key key = .ok 2) := by
  refine ⟨fun d key value hd h => hd.insert_absent key value h,
    fun d key value L hd h => hd.insert_present key value L h, ?_⟩
  intro d key v1 v2 hd h
  obtain ⟨d1, h1, hv1, _⟩ := hd.insert_absent key v1 h
  obtain ⟨d1', h1', hInv1, _⟩ := hd.insert key v1
  rw [h1] at h1'; cases h1'
  obtain ⟨d2, h2, hv2, hs2⟩ := hInv1.insert_present key v2 [v1] hv1
  exact ⟨d1, d2, h1, h2, by simpa using hv2, by simpa using hs2⟩

/-- C3 on `{a: [1]}`: inserting `2` under the new key `b`, inserting `2`
under the stored key `a`, and inserting `2` then `3` under the new key `b`. -/
theorem multi_value_accumulation_witness :
    (∃ d1, (Dictionary.mk ["a"] [["1"]]).insert "b" "2" = .ok d1 ∧ d1.value "b" = .ok ["2"] ∧
      d1.size_key "b" = .ok 1) ∧
    (∃ d1, (Dictionary.mk ["a"] [["1"]]).insert "a" "2" = .ok d1 ∧
      d1.value "a" = .ok (["1"] ++ ["2"]) ∧
      d1.size_key "a" = .ok (((["1"] : List String).length : Int) + 1)) ∧
    (∃ d1 d2, (Dictionary.mk ["a"] [["1"]]).insert "b" "2" = .ok d1 ∧
      d1.insert "b" "3" = .ok d2 ∧ d2.value "b" = .ok ["2", "3"] ∧
      d2.size_key "b" = .ok 2) :=
  ⟨multi_value_accumulation.1 ⟨["a"], [["1"]]⟩ "b" "2" (by decide) (by decide),
    multi_value_accumulation.2.1 ⟨["a"], [["1"]]⟩ "a" "2" ["1"] (by decide) rfl,
    multi_value_accumulation.2.2 ⟨["a"], [["1"]]⟩ "b" "2" "3" (by decide) (by decide)⟩

/-- C4. On a dictionary that satisfies the invariant, `replace(key, value)`
under a stored key returns and `value(key)` is then `[value]`, whatever the
key held before; so after `insert(k, v1)`, `insert(k, v2)`, `replace(k, v3)`
`value(k)` is `[v3]`.  Under an absent key `replace` returns the dictionary
unchanged, on every dictionary. -/
theorem replace_resets_never_creates :
    (∀ (d : Dictionary) (key value : String), d.Inv → key ∈ d.keys →
      ∃ d1, d.replace key value = .ok d1 ∧ d1.value key = .ok [value]) ∧
    (∀ (d : Dictionary) (key v1 v2 v3 : String), d.Inv →
      ∃ d1 d2 d3, d.insert key v1 = .ok d1 ∧ d1.insert key v2 = .ok d2 ∧
        d2.replace key v3 = .ok d3 ∧ d3.value key = .ok [v3]) ∧
    (∀ (d : Dictionary) (key value : String), key ∉ d.keys →
      d.replace key value = .ok d ∧ d.contains key < 0) := by
  refine ⟨fun d key value hd h => hd.replace_present key value h, ?_, ?_⟩
  · intro d key v1 v2 v3 hd
    obtain ⟨d1, h1, hInv1, hk1⟩ := hd.insert key v1
    obtain ⟨d2, h2, hInv2, hk2⟩ := hInv1.insert key v2
    have hmem1 : key ∈ d1.m_keys := by
      rw [hk1]; split
      · assumption
      · simp
    have hmem2 : key ∈ d2.m_keys := by
      rw [hk2]; simp [hmem1]
    obtain ⟨d3, h3, hv3⟩ := hInv2.replace_present key v3 hmem2
    exact ⟨d1, d2, d3, h1, h2, h3, hv3⟩
  · intro d key value h
    exact ⟨replace_of_not_mem d key value h, (contains_neg_iff d key).mpr h⟩

/-- C4 on `{a: [1, 2]}`: replacing under `a`, the three calls of the example
under the new key `k`, and replacing under the absent key `b`. -/
theorem replace_resets_never_creates_witness :
    (∃ d1, (Dictionary.mk ["a"] [["1", "2"]]).replace "a" "3" = .ok d1 ∧
      d1.value "a" = .ok ["3"]) ∧
    (∃ d1 d2 d3, (Dictionary.mk ["a"] [["1", "2"]]).insert "k" "v1" = .ok d1 ∧
      d1.insert "k" "v2" = .ok d2 ∧ d2.replace "k" "v3" = .ok d3 ∧
      d3.value "k" = .ok ["v3"]) ∧
    ((Dictionary.mk ["a"] [["1", "2"]]).replace "b" "3" = .ok (Dictionary.mk ["a"] [["1", "2"]]) ∧
      (Dictionary.mk ["a"] [["1", "2"]]).contains "b" < 0) :=
  ⟨replace_resets_never_creates.1 ⟨["a"], [["1", "2"]]⟩ "a" "3" (by decide) (by decide),
    replace_resets_never_creates.2.1 ⟨["a"], [["1", "2"]]⟩ "k" "v1" "v2" "v3" (by decide),
    replace_resets_never_creates.2.2 ⟨["a"], [["1", "2"]]⟩ "b" "3" (by decide)⟩

/-- C5. On a dictionary that satisfies the invariant `remove(key)` returns,
and then `contains(key)` is negative; `size()` is one less than before if the
key was stored, and the dictionary is the same as before if it was not; a
second `remove(key)` returns the same dictionary as the first. -/
theorem remove_total_idempotent (d : Dictionary) (key : String) (hd : d.Inv) :
    ∃ d1, d.remove key = .ok d1 ∧ d1.contains key < 0 ∧
      (key ∈ d.keys → d1.size = d.size - 1) ∧
      (key ∉ d.keys → d1 = d) ∧
      d1.remove key = .ok d1 := by
  obtain ⟨d1, h1, hn, hs, he⟩ := hd.remove_absent_after key
  exact ⟨d1, h1, (contains_neg_iff d1 key).mpr hn, hs, he, remove_of_not_mem d1 key hn⟩

/-- C5 on `{a: [1, 2], b: [3]}` with the stored key `a`. -/
theorem remove_total_idempotent_witness :
    ∃ d1, (Dictionary.mk ["a", "b"] [["1", "2"], ["3"]]).remove "a" = .ok d1 ∧
      d1.contains "a" < 0 ∧
      ("a" ∈ (Dictionary.mk ["a", "b"] [["1", "2"], ["3"]]).keys →
        d1.size = (Dictionary.mk ["a", "b"] [["1", "2"], ["3"]]).size - 1) ∧
      ("a" ∉ (Dictionary.mk ["a", "b"] [["1", "2"], ["3"]]).keys →
        d1 = Dictionary.mk ["a", "b"] [["1", "2"], ["3"]]) ∧
      d1.remove "a" = .ok d1 :=
  remove_total_idempotent ⟨["a", "b"], [["1", "2"], ["3"]]⟩ "a" (by decide)

/-- C6. For a target and a source that satisfy the invariant,
`target.insert(source)` returns, and returns exactly what calling
`target.insert(key, value)` for every pair of the source returns, in the
source's key order and then per-key value order; every value list of the
target is still there, as the front of the list the key holds afterwards.
The same holds for `d.insert(&d)`.  The `remove(key)` call in the loop is
made when `contains(key)` is negative and changes nothing.  Merging
`{k: [v2]}` into `{k: [v1]}` gives `value(k) == [v1, v2]`. -/
theorem merge_is_append_only :
    (∀ (target source : Dictionary), target.Inv → source.Inv →
      ∃ d1, target.insert_dictionary source = .ok d1 ∧
        target.insert_each_pair source = .ok d1 ∧
        ∀ (key : String) (L : List String), target.value key = .ok L →
          ∃ M, d1.value key = .ok (L ++ M)) ∧
    (∀ (d : Dictionary), d.Inv →
      ∃ d1, d.insert_self = .ok d1 ∧ d.insert_each_pair d = .ok d1) ∧
    (∀ (d : Dictionary) (key : String), d.contains key < 0 → d.remove key = .ok d) ∧
    (∀ (k v1 v2 : String),
      ∃ d1, (Dictionary.mk [k] [[v1]]).insert_dictionary (Dictionary.mk [k] [[v2]]) = .ok d1 ∧
        d1.value k = .ok [v1, v2]) := by
  refine ⟨?_, ?_, ?_, ?_⟩
  · intro target source ht hs
    obtain ⟨d1, h1, _⟩ := ht.insert_dictionary hs
    refine ⟨d1, h1, ?_, ?_⟩
    · rw [← insert_dictionary_eq target source hs, h1]
    · intro key L hL
      exact ht.insert_dictionary_loop_value_extends _ h1 key L hL
  · intro d hd
    obtain ⟨d1, h1, _⟩ := hd.insert_self
    exact ⟨d1, h1, by rw [← hd.insert_self_eq, h1]⟩
  · intro d key h
    exact remove_of_not_mem d key ((contains_neg_iff d key).mp h)
  · intro k v1 v2
    refine ⟨⟨[k], [[v1, v2]]⟩, ?_, ?_⟩
    · simp [insert_dictionary, insert_dictionary_loop, insert_dictionary_step_eq, keys,
        Dictionary.value, contains, find, vec_at, insert_all, Dictionary.insert, vec_at_update]
    · simp [Dictionary.value, contains, find, vec_at]

/-- C6 with target `{a: [1], b: [2]}` and source `{b: [3, 4], c: [5]}`, with
`d.insert(&d)` on `{a: [1], b: [2]}`, and with `remove("c")` on the target. -/
theorem merge_is_append_only_witness :
    (∃ d1, (Dictionary.mk ["a", "b"] [["1"], ["2"]]).insert_dictionary
        (Dictionary.mk ["b", "c"] [["3", "4"], ["5"]]) = .ok d1 ∧
      (Dictionary.mk ["a", "b"] [["1"], ["2"]]).insert_each_pair
        (Dictionary.mk ["b", "c"] [["3", "4"], ["5"]]) = .ok d1 ∧
      ∀ (key : String) (L : List String),
        (Dictionary.mk ["a", "b"] [["1"], ["2"]]).value key = .ok L →
          ∃ M, d1.value key = .ok (L ++ M)) ∧
    (∃ d1, (Dictionary.mk ["a", "b"] [["1"], ["2"]]).insert_self = .ok d1 ∧
      (Dictionary.mk ["a", "b"] [["1"], ["2"]]).insert_each_pair
        (Dictionary.mk ["a", "b"] [["1"], ["2"]]) = .ok d1) ∧
    (Dictionary.mk ["a", "b"] [["1"], ["2"]]).remove "c" =
      .ok (Dictionary.mk ["a", "b"] [["1"], ["2"]]) :=
  ⟨merge_is_append_only.1 ⟨["a", "b"], [["1"], ["2"]]⟩ ⟨["b", "c"], [["3", "4"], ["5"]]⟩
      (by decide) (by decide),
    merge_is_append_only.2.1 ⟨["a", "b"], [["1"], ["2"]]⟩ (by decide),
    merge_is_append_only.2.2.1 ⟨["a", "b"], [["1"], ["2"]]⟩ "c" (by decide)⟩

/-- C7. If the key occurs in `keys()`, `contains(key)` is the 0-based offset
of its first occurrence, which is below `size()`; if it does not occur,
`contains(key)` is -1, which is no offset. -/
theorem contains_position_lookup (d : Dictionary) (key : String) :
    (key ∈ d.keys →
      ∃ i : Nat, d.contains key = (i : Int) ∧ (0 : Int) ≤ i ∧ (i : Int) < d.size ∧
        d.keys[i]? = some key ∧ ∀ j : Nat, j < i → d.keys[j]? ≠ some key) ∧
    (key ∉ d.keys → d.contains key = -1 ∧ ∀ i : Nat, d.contains key ≠ (i : Int)) := by
  constructor
  · intro h
    refine ⟨find d.m_keys key, contains_of_mem d key h, by omega, ?_, find_get? _ _ h,
      fun j hj => find_first _ _ j hj⟩
    have := (find_lt_iff d.m_keys key).mpr h
    simp only [size]; omega
  · intro h
    rw [contains_of_not_mem d key h]
    exact ⟨rfl, fun i => by omega⟩

/-- C7 on the keys `[a, b, c]`: `b` is at offset 1, `z` is not found. -/
theorem contains_position_lookup_witness :
    (∃ i : Nat, (Dictionary.mk ["a", "b", "c"] [["1"], ["2"], ["3"]]).contains "b" = (i : Int) ∧
      (0 : Int) ≤ i ∧ (i : Int) < (Dictionary.mk ["a", "b", "c"] [["1"], ["2"], ["3"]]).size ∧
      (Dictionary.mk ["a", "b", "c"] [["1"], ["2"], ["3"]]).keys[i]? = some "b" ∧
      ∀ j : Nat, j < i →
        (Dictionary.mk ["a", "b", "c"] [["1"], ["2"], ["3"]]).keys[j]? ≠ some "b") ∧
    ((Dictionary.mk ["a", "b", "c"] [["1"], ["2"], ["3"]]).contains "z" = -1 ∧
      ∀ i : Nat, (Dictionary.mk ["a", "b", "c"] [["1"], ["2"], ["3"]]).contains "z" ≠ (i : Int)) :=
  ⟨(contains_position_lookup ⟨["a", "b", "c"], [["1"], ["2"], ["3"]]⟩ "b").1 (by decide),
    (contains_position_lookup ⟨["a", "b", "c"], [["1"], ["2"], ["3"]]⟩ "z").2 (by decide)⟩

/-- C8. `value(key)` on the empty dictionary: `contains` is negative, the
`if` is skipped and the body of `value` ends without a `return`; no error
is reported.  (On a stored key the list is returned.) -/
theorem value_absent_key_no_return :
    Dictionary.empty.contains "k" = -1 ∧
    Dictionary.empty.value "k" = .error .undefined_behaviour ∧
    (Dictionary.mk ["k"] [["v"]]).value "k" = .ok ["v"] :=
  ⟨rfl, rfl, rfl⟩

/-- C9. On every dictionary that can be built from the empty one, an index
`idx >= 0` obtained from `contains` is below the length of `m_values`, so
`m_values.at(idx)` does not throw: `size(key)`, `insert(key, value)`,
`insert(source)` (from a reachable source, or from the dictionary itself),
`remove(key)` and `replace(key, value)` return, and `value(key)` does not
end in `std::out_of_range`.  (`size()`, `contains`, `keys` and `values` have
no failing path: they are total functions.) -/
theorem map_operations_total (d : Dictionary) (h : d.Reachable) :
    (∀ key : String, 0 ≤ d.contains key → d.contains key < (d.values.length : Int)) ∧
    (∀ key : String, ∃ n, d.size_key key = .ok n) ∧
    (∀ key value : String, ∃ d1, d.insert key value = .ok d1) ∧
    (∀ source : Dictionary, source.Reachable → ∃ d1, d.insert_dictionary source = .ok d1) ∧
    (∃ d1, d.insert_self = .ok d1) ∧
    (∀ key : String, ∃ d1, d.remove key = .ok d1) ∧
    (∀ key value : String, ∃ d1, d.replace key value = .ok d1) ∧
    (∀ key : String, d.value key ≠ .error .out_of_range) ∧
    (∀ key : String, key ∈ d.keys → ∃ L, d.value key = .ok L) := by
  have hd := h.inv
  refine ⟨hd.contains_lt, hd.size_key, ?_, ?_, ?_, ?_, ?_, hd.value_ne_out_of_range, ?_⟩
  · intro key value
    obtain ⟨d1, h1, _⟩ := hd.insert key value
    exact ⟨d1, h1⟩
  · intro source hs
    obtain ⟨d1, h1, _⟩ := hd.insert_dictionary hs.inv
    exact ⟨d1, h1⟩
  · obtain ⟨d1, h1, _⟩ := hd.insert_self
    exact ⟨d1, h1⟩
  · intro key
    obtain ⟨d1, h1, _⟩ := hd.remove key
    exact ⟨d1, h1⟩
  · intro key value
    obtain ⟨d1, h1, _⟩ := hd.replace key value
    exact ⟨d1, h1⟩
  · intro key hk
    obtain ⟨L, hL, _⟩ := hd.value hk
    exact ⟨L, hL⟩

/-- C9 on the dictionary `{a: [1, 2]}`, built by two `insert` calls. -/
theorem map_operations_total_witness :
    (Dictionary.mk ["a"] [["1", "2"]]).Reachable ∧
    (∀ key value : String, ∃ d1, (Dictionary.mk ["a"] [["1", "2"]]).insert key value = .ok d1) ∧
    (∀ key : String, (Dictionary.mk ["a"] [["1", "2"]]).value key ≠ .error .out_of_range) :=
  have hr : (Dictionary.mk ["a"] [["1", "2"]]).Reachable :=
    Reachable.insert "a" "2"
      (Reachable.insert "a" "1" Reachable.empty
        (rfl : Dictionary.empty.insert "a" "1" = .ok ⟨["a"], [["1"]]⟩))
      (rfl : (Dictionary.mk ["a"] [["1"]]).insert "a" "2" = .ok ⟨["a"], [["1", "2"]]⟩)
  ⟨hr, (map_operations_total _ hr).2.2.1, (map_operations_total _ hr).2.2.2.2.2.2.2.1⟩

/-- C10. On a dictionary that satisfies the invariant, `size()` is the
length of `keys()` and of `values()`; at every offset below `size()` the
entry of `values()` is what `value` returns for the entry of `keys()`; for a
stored key `size(key)` is the length of `value(key)`, and for an absent key
`size(key)` is -1. -/
theorem read_accessors_agree (d : Dictionary) (hd : d.Inv) :
    d.size = (d.keys.length : Int) ∧ d.keys.length = d.values.length ∧
    (∀ i : Nat, (i : Int) < d.size →
      ∃ key value_list, d.keys[i]? = some key ∧ d.values[i]? = some value_list ∧
        d.value key = .ok value_list) ∧
    (∀ key : String, key ∈ d.keys →
      ∃ L, d.value key = .ok L ∧ d.size_key key = .ok (L.length : Int)) ∧
    (∀ key : String, key ∉ d.keys → d.size_key key = .ok (-1)) := by
  refine ⟨rfl, hd.1, ?_, ?_, fun key h => size_key_of_not_mem d key h⟩
  · intro i hi
    have hk : i < d.m_keys.length := by simp only [size] at hi; omega
    have hv : i < d.m_values.length := hd.1 ▸ hk
    exact ⟨d.m_keys[i], d.m_values[i], List.getElem?_eq_getElem hk,
      List.getElem?_eq_getElem hv, hd.value_getElem i hk hv⟩
  · intro key h
    obtain ⟨L, hL, _⟩ := hd.value_list h
    exact ⟨L, value_of_mem d key L h hL, size_key_of_mem d key L h hL⟩

/-- C10 on `{a: [1, 2], b: [3]}`. -/
theorem read_accessors_agree_witness :
    (Dictionary.mk ["a", "b"] [["1", "2"], ["3"]]).size = 2 ∧
    (∃ L, (Dictionary.mk ["a", "b"] [["1", "2"], ["3"]]).value "a" = .ok L ∧
      (Dictionary.mk ["a", "b"] [["1", "2"], ["3"]]).size_key "a" = .ok (L.length : Int)) ∧
    (Dictionary.mk ["a", "b"] [["1", "2"], ["3"]]).size_key "z" = .ok (-1) :=
  ⟨(read_accessors_agree ⟨["a", "b"], [["1", "2"], ["3"]]⟩ (by decide)).1,
    (read_accessors_agree ⟨["a", "b"], [["1", "2"], ["3"]]⟩ (by decide)).2.2.2.1 "a" (by decide),
    (read_accessors_agree ⟨["a", "b"], [["1", "2"], ["3"]]⟩ (by decide)).2.2.2.2 "z" (by decide)⟩

end Dictionary

namespace Dictionary

/-- C17, as written, fails: on the empty dictionary the key `k` does not
exist and `contains("k")` is -1, not 0; and on `{k: [v]}` the value 0 is the
index of the stored key `k`. -/
theorem contains_not_found_is_not_zero :
    "k" ∉ Dictionary.empty.keys ∧ Dictionary.empty.contains "k" = -1 ∧
    Dictionary.empty.contains "k" ≠ 0 ∧
    (Dictionary.mk ["k"] [["v"]]).contains "k" = 0 :=
  ⟨by decide, rfl, by decide, rfl⟩

/-- C17, amended. `contains(key)` returns the index of the key in the
container if the key exists in the dictionary, and otherwise it returns -1;
it returns 0 exactly when the key is the first key of the dictionary. -/
theorem contains_index_or_minus_one (d : Dictionary) (key : String) :
    (key ∈ d.keys → ∃ i : Nat, d.contains key = (i : Int) ∧ d.keys[i]? = some key) ∧
    (key ∉ d.keys → d.contains key = -1) ∧
    (d.contains key = 0 ↔ d.keys.head? = some key) :=
  ⟨fun h => ⟨find d.m_keys key, contains_of_mem d key h, find_get? _ _ h⟩,
    fun h => contains_of_not_mem d key h, contains_eq_zero_iff d key⟩

/-- C17, amended, on the keys `[a, b]`: `b` is found at index 1 and `z` gives -1. -/
theorem contains_index_or_minus_one_witness :
    (∃ i : Nat, (Dictionary.mk ["a", "b"] [["1"], ["2"]]).contains "b" = (i : Int) ∧
      (Dictionary.mk ["a", "b"] [["1"], ["2"]]).keys[i]? = some "b") ∧
    (Dictionary.mk ["a", "b"] [["1"], ["2"]]).contains "z" = -1 :=
  ⟨(contains_index_or_minus_one ⟨["a", "b"], [["1"], ["2"]]⟩ "b").1 (by decide),
    (contains_index_or_minus_one ⟨["a", "b"], [["1"], ["2"]]⟩ "z").2.1 (by decide)⟩

/-- C20. On a dictionary that satisfies the invariant, and for a key `other`
different from `key`: each of `insert(key, value)`, `replace(key, value)` and
`remove(key)` returns, leaves `value(other)` and `size(other)` as they were,
and leaves the keys other than `key` in the same relative order.  After
`remove(key)`, `keys()` is the previous list with the entry `key` deleted and
`values()` is the previous list with the entry at the same index deleted, so
that the two lists have the same length. -/
theorem single_key_operations_frame (d : Dictionary) (key other value : String)
    (hd : d.Inv) (hne : other ≠ key) :
    (∃ d1, d.insert key value = .ok d1 ∧ d1.value other = d.value other ∧
      d1.size_key other = d.size_key other ∧
      d1.keys.filter (fun x => x ≠ key) = d.keys.filter (fun x => x ≠ key)) ∧
    (∃ d1, d.replace key value = .ok d1 ∧ d1.value other = d.value other ∧
      d1.size_key other = d.size_key other ∧
      d1.keys.filter (fun x => x ≠ key) = d.keys.filter (fun x => x ≠ key)) ∧
    (∃ d1, d.remove key = .ok d1 ∧ d1.value other = d.value other ∧
      d1.size_key other = d.size_key other ∧
      d1.keys.filter (fun x => x ≠ key) = d.keys.filter (fun x => x ≠ key) ∧
      d1.keys = d.keys.erase key ∧
      d1.keys = d.keys.eraseIdx (find d.keys key) ∧
      d1.values = d.values.eraseIdx (find d.keys key) ∧
      (key ∈ d.keys → d.contains key = (find d.keys key : Int)) ∧
      d1.keys.length = d1.values.length) := by
  refine ⟨?_, ?_, ?_⟩
  · obtain ⟨d1, h1, _, hk⟩ := hd.insert key value
    have hv := hd.insert_value_other value hne h1
    refine ⟨d1, h1, hv, size_key_eq_of_value_eq hv ?_, ?_⟩
    · rw [hk]; split <;> simp [hne]
    · simp only [keys, hk]; split <;> simp
  · obtain ⟨d1, h1, _, hk⟩ := hd.replace key value
    have hv := hd.replace_value_other value hne h1
    exact ⟨d1, h1, hv, size_key_eq_of_value_eq hv (by rw [hk]), by simp only [keys, hk]⟩
  · obtain ⟨d1, h1, hInv1, _⟩ := hd.remove key
    have hv := hd.remove_value_other hne h1
    obtain ⟨hk, hvs⟩ := remove_keys_values d d1 key hd h1
    refine ⟨d1, h1, hv, size_key_eq_of_value_eq hv ?_, ?_, ?_, hk, hvs,
      fun h => contains_of_mem d key h, hInv1.1⟩
    · rw [hk]; exact mem_eraseIdx_find_of_ne _ _ _ hne
    · simp only [keys, hk]; exact filter_ne_eraseIdx_find _ _
    · simp only [keys, hk]; exact eraseIdx_find_eq_erase _ _

/-- C20 on `{a: [1], b: [2, 3], c: [4]}` with `key = b` and `other = c`. -/
theorem single_key_operations_frame_witness :
    (∃ d1, (Dictionary.mk ["a", "b", "c"] [["1"], ["2", "3"], ["4"]]).remove "b" = .ok d1 ∧
      d1.value "c" = .ok ["4"] ∧ d1.size_key "c" = .ok 1 ∧
      d1.keys = ["a", "c"] ∧ d1.values = [["1"], ["4"]]) := by
  obtain ⟨d1, h1, hv, hs, _, hk, _, hvs, _, _⟩ :=
    (single_key_operations_frame ⟨["a", "b", "c"], [["1"], ["2", "3"], ["4"]]⟩ "b" "c" "x"
      (by decide) (by decide)).2.2
  exact ⟨d1, h1, hv, hs, hk, hvs⟩

end Dictionary

namespace TreeStructure

variable {node_t : Type}

/-- C11. `get_child(i)` on a node with the children `cs`: the null pointer 0
for every `i` if `cs` is empty; otherwise the last element of `cs` if `i < 0`
(and so for the call without argument, `i = -1`), the element `cs[i]` if
`0 <= i < length cs`, and the null pointer if `i >= length cs`.  With the
children `[c0, c1, c2]`: `get_child(1) == c1`, `get_child() == c2` and
`get_child(5)` is the null pointer. -/
theorem get_child_by_index (n : TreeStructure node_t) :
    (n.get_children = [] → ∀ i : Int, n.get_child i = .ok 0) ∧
    (∀ (i : Int) (c : Nat), n.get_children.getLast? = some c → i < 0 →
      n.get_child i = .ok c) ∧
    (∀ c : Nat, n.get_children.getLast? = some c → n.get_child_default = .ok c) ∧
    (∀ (k : Nat) (c : Nat), n.get_children[k]? = some c → n.get_child (k : Int) = .ok c) ∧
    (∀ i : Int, (n.get_children.length : Int) ≤ i → n.get_child i = .ok 0) ∧
    (∀ c0 c1 c2 : Nat, n.get_children = [c0, c1, c2] →
      n.get_child 1 = .ok c1 ∧ n.get_child_default = .ok c2 ∧ n.get_child 5 = .ok 0) := by
  refine ⟨fun h i => get_child_of_empty n i h, fun i c h hi => get_child_of_neg n i c h hi,
    fun c h => get_child_of_neg n (-1) c h (by omega), fun k c h => get_child_of_lt n k c h,
    fun i h => get_child_of_ge n i h, ?_⟩
  intro c0 c1 c2 h
  have hc : n.m_children = [c0, c1, c2] := h
  refine ⟨?_, ?_, ?_⟩
  · exact get_child_of_lt n 1 c1 (by simp [hc])
  · exact get_child_of_neg n (-1) c2 (by simp [hc]) (by omega)
  · exact get_child_of_ge n 5 (by simp [hc])

/-- C11 on a node with the children at the addresses `[10, 20, 30]`, and on
a node without children. -/
theorem get_child_by_index_witness :
    ((((new (0 : Nat) 0).add_child 10).add_child 20).add_child 30).get_child 1 = .ok 20 ∧
    ((((new (0 : Nat) 0).add_child 10).add_child 20).add_child 30).get_child_default = .ok 30 ∧
    ((((new (0 : Nat) 0).add_child 10).add_child 20).add_child 30).get_child 5 = .ok 0 ∧
    (∀ i : Int, (new (0 : Nat) 0).get_child i = .ok 0) ∧
    ((((new (0 : Nat) 0).add_child 10).add_child 20).add_child 30).get_child (-7) = .ok 30 :=
  ⟨((get_child_by_index ((((new (0 : Nat) 0).add_child 10).add_child 20).add_child 30)).2.2.2.2.2
      10 20 30 rfl).1,
    ((get_child_by_index ((((new (0 : Nat) 0).add_child 10).add_child 20).add_child 30)).2.2.2.2.2
      10 20 30 rfl).2.1,
    ((get_child_by_index ((((new (0 : Nat) 0).add_child 10).add_child 20).add_child 30)).2.2.2.2.2
      10 20 30 rfl).2.2,
    (get_child_by_index (new (0 : Nat) 0)).1 rfl,
    (get_child_by_index ((((new (0 : Nat) 0).add_child 10).add_child 20).add_child 30)).2.1
      (-7) 30 rfl (by decide)⟩

end TreeStructure

namespace Heap

variable {node_t : Type}

/-- C12. For a node `p` whose child pointers point to the objects
`children`, `p.get_value(T)` is the `get_value()` of the first child, in child
order, whose type is `T`, and the null pointer when no child has type `T`.
The first such child decides also when it has no value and a later child of
type `T` has one.  The result is the same in every heap in which the
children of `p` have the same types and values, whatever their own children
are.  For `p` with the single child `c` of type `T` and value `x`, where `c`
has a child `g` of type `T` and value `y`, the result is `x`. -/
theorem typed_child_lookup [DecidableEq node_t] (h : Heap node_t) (p : TreeStructure node_t)
    (T : node_t) :
    (∀ children : List (TreeStructure node_t),
      List.Forall₂ (fun ptr child => h.deref ptr = some child) p.get_children children →
      h.get_value_by_type p T =
        .ok ((children.find? (fun c => decide (c.get_type = T))).bind
          TreeStructure.get_value)) ∧
    (∀ children : List (TreeStructure node_t),
      List.Forall₂ (fun ptr child => h.deref ptr = some child) p.get_children children →
      (∀ c ∈ children, c.get_type ≠ T) → h.get_value_by_type p T = .ok none) ∧
    (∀ (pre post : List (TreeStructure node_t)) (c : TreeStructure node_t),
      List.Forall₂ (fun ptr child => h.deref ptr = some child) p.get_children
        (pre ++ c :: post) →
      (∀ x ∈ pre, x.get_type ≠ T) → c.get_type = T →
      h.get_value_by_type p T = .ok c.get_value) ∧
    (∀ h2 : Heap node_t,
      (∀ ptr ∈ p.get_children,
        (h2.deref ptr).map (fun c => (c.get_type, c.get_value)) =
          (h.deref ptr).map (fun c => (c.get_type, c.get_value))) →
      h2.get_value_by_type p T = h.get_value_by_type p T) ∧
    (∀ (pc pg : Nat) (c g : TreeStructure node_t) (x y : String),
      p.get_children = [pc] → h.deref pc = some c → c.get_type = T → c.get_value = some x →
      c.get_children = [pg] → h.deref pg = some g → g.get_type = T → g.get_value = some y →
      h.get_value_by_type p T = .ok (some x)) := by
  refine ⟨fun children hl => get_value_loop_eq h T _ children hl, ?_, ?_,
    fun h2 hs => get_value_loop_congr h h2 T _ hs, ?_⟩
  · intro children hl hno
    have hl1 : List.Forall₂ (fun ptr child => h.deref ptr = some child) p.m_children children := hl
    rw [get_value_by_type, get_value_loop_eq h T _ children hl1]
    have : children.find? (fun c => decide (c.get_type = T)) = none := by
      rw [List.find?_eq_none]
      intro c hc
      simpa using hno c hc
    rw [this]; rfl
  · intro pre post c hl hpre hc
    have hl1 : List.Forall₂ (fun ptr child => h.deref ptr = some child) p.m_children
      (pre ++ c :: post) := hl
    rw [get_value_by_type, get_value_loop_eq h T _ _ hl1,
      find?_append_cons_of_first _ pre post c (fun x hx => by simpa using hpre x hx)
        (by simpa using hc)]
    rfl
  · intro pc pg c g x y hp hcl hct hcv _ _ _ _
    have hpc : p.m_children = [pc] := hp
    simp [get_value_by_type, hpc, get_value_loop, hcl, hct, hcv]

/-- C12 on the tree of three levels, where the node at 2 has type 8, value `x`
and a child of type 8 and value `y`, and the node at 3 has type 9 and no
value: lookups from a node with the children `[2, 3]` and from a node with
the single child 2. -/
theorem typed_child_lookup_witness :
    three_level_tree.get_value_by_type (((TreeStructure.new 7 0).add_child 2).add_child 3) 9 =
      .ok ((TreeStructure.new (9 : Nat) 1).get_value) ∧
    three_level_tree.get_value_by_type (((TreeStructure.new 7 0).add_child 2).add_child 3) 5 =
      .ok none ∧
    three_level_tree.get_value_by_type ((TreeStructure.new 7 0).add_child 2) 8 =
      .ok (some "x") :=
  ⟨(typed_child_lookup three_level_tree (((TreeStructure.new 7 0).add_child 2).add_child 3)
      9).2.2.1 [(TreeStructure.new_with_value 8 1 "x").add_child 4] [] (TreeStructure.new 9 1)
      (List.Forall₂.cons rfl (List.Forall₂.cons rfl List.Forall₂.nil)) (by decide) rfl,
    (typed_child_lookup three_level_tree (((TreeStructure.new 7 0).add_child 2).add_child 3)
      5).2.1 [(TreeStructure.new_with_value 8 1 "x").add_child 4, TreeStructure.new 9 1]
      (List.Forall₂.cons rfl (List.Forall₂.cons rfl List.Forall₂.nil)) (by decide),
    (typed_child_lookup three_level_tree ((TreeStructure.new 7 0).add_child 2) 8).2.2.2.2
      2 4 ((TreeStructure.new_with_value 8 1 "x").add_child 4)
      (TreeStructure.new_with_value 8 2 "y") "x" "y" rfl rfl rfl rfl rfl rfl rfl rfl⟩

end Heap

namespace TreeStructure

variable {node_t : Type}

/-- C13, as written, fails: the node constructed with the value `a`, NUL,
`b` returns the C string `a` from `get_value()`, not the given text. -/
theorem value_with_nul_is_cut :
    (new_with_value (0 : Nat) 0 (String.mk ['a', Char.ofNat 0, 'b'])).get_value = some "a" ∧
    (new_with_value (0 : Nat) 0 (String.mk ['a', Char.ofNat 0, 'b'])).get_value ≠
      some (String.mk ['a', Char.ofNat 0, 'b']) :=
  ⟨by decide, by decide⟩

/-- C13, amended. Both constructors give a node with the given type and
level, no children, `is_leaf() == true`, an empty attribute dictionary, and
`is_root() == true` exactly when the level is 0.  Without a value
`get_value()` is the null pointer; with the value `v` it is present and is
the C string of `v`, the characters of `v` before its first NUL character:
it equals `v` whenever `v` has no NUL character, and it is the present, empty
string for the empty `v`. -/
theorem construction_root_leaf (t : node_t) (d : Int) (v : String) :
    ((new t d).get_type = t ∧ (new t d).get_level = d ∧ (new t d).number_of_children = 0 ∧
      (new t d).get_children = [] ∧ (new t d).is_leaf = true ∧
      (new t d).m_attributes = Dictionary.empty ∧ ((new t d).is_root = true ↔ d = 0) ∧
      (new t d).get_value = none) ∧
    ((new_with_value t d v).get_type = t ∧ (new_with_value t d v).get_level = d ∧
      (new_with_value t d v).number_of_children = 0 ∧
      (new_with_value t d v).get_children = [] ∧ (new_with_value t d v).is_leaf = true ∧
      (new_with_value t d v).m_attributes = Dictionary.empty ∧
      ((new_with_value t d v).is_root = true ↔ d = 0) ∧
      (new_with_value t d v).get_value = some (c_string v) ∧
      (new_with_value t d v).get_value ≠ none ∧
      (Char.ofNat 0 ∉ v.data → (new_with_value t d v).get_value = some v)) ∧
    (∃ rest, v.data = (c_string v).data ++ rest ∧ Char.ofNat 0 ∉ (c_string v).data ∧
      (rest = [] ∨ rest.head? = some (Char.ofNat 0))) ∧
    (new_with_value t d "").get_value = some "" := by
  refine ⟨⟨rfl, rfl, rfl, rfl, rfl, rfl, by simp [is_root, new], rfl⟩,
    ⟨rfl, rfl, rfl, rfl, rfl, rfl, by simp [is_root, new_with_value], rfl, by simp [get_value,
      new_with_value], ?_⟩, c_string_front v, rfl⟩
  intro h
  simp [get_value, new_with_value, c_string_of_no_nul v h]

/-- C13, amended, on a node of type 5 at level 0 with the value `abc`. -/
theorem construction_root_leaf_witness :
    (new_with_value (5 : Nat) 0 "abc").get_value = some "abc" ∧
    (new_with_value (5 : Nat) 0 "abc").is_root = true ∧
    (new (5 : Nat) 3).is_root ≠ true :=
  ⟨(construction_root_leaf (5 : Nat) 0 "abc").2.1.2.2.2.2.2.2.2.2.2 (by decide),
    (construction_root_leaf (5 : Nat) 0 "abc").2.1.2.2.2.2.2.2.1.mpr rfl,
    fun h => absurd ((construction_root_leaf (5 : Nat) 3 "abc").1.2.2.2.2.2.2.1.mp h) (by decide)⟩

/-- C14. After `n.add_child(c)` on a node with the children `cs`:
`get_children()` is `cs ++ [c]`, `number_of_children()` is `length cs + 1`,
`is_leaf()` is false, `get_child()` is `c`, `get_child(i)` is as before for
every `0 <= i < length cs`; level, type, value and attribute dictionary are
as before.  The call looks only at the pointer: with `p` pointing to `n` it
returns whatever is stored, or not stored, at `c`.  A node made by either
constructor has `is_leaf() == true` and `number_of_children() == 0`, and
after one `add_child` it has `is_leaf() == false` and
`number_of_children() == 1`; so has every node that was a leaf before the
call. -/
theorem add_child_appends (n : TreeStructure node_t) (c : Nat) :
    (n.add_child c).get_children = n.get_children ++ [c] ∧
    (n.add_child c).number_of_children = (n.get_children.length : Int) + 1 ∧
    (n.add_child c).number_of_children = n.number_of_children + 1 ∧
    (n.add_child c).is_leaf = false ∧
    (n.add_child c).get_child_default = .ok c ∧
    (∀ i : Nat, i < n.get_children.length →
      ∃ ci, n.get_children[i]? = some ci ∧ n.get_child (i : Int) = .ok ci ∧
        (n.add_child c).get_child (i : Int) = .ok ci) ∧
    (n.add_child c).get_level = n.get_level ∧
    (n.add_child c).get_type = n.get_type ∧
    (n.add_child c).get_value = n.get_value ∧
    (n.add_child c).m_attributes = n.m_attributes ∧
    (∀ (h : Heap node_t) (p : Nat), h.deref p = some n →
      h.add_child p c = .ok (h.store p (n.add_child c))) ∧
    (∀ (t : node_t) (d : Int), ((new t d).add_child c).is_leaf = false ∧
      ((new t d).add_child c).number_of_children = 1 ∧
      (new t d).is_leaf = true ∧ (new t d).number_of_children = 0) ∧
    (∀ (t : node_t) (d : Int) (v : String),
      (new_with_value t d v).is_leaf = true ∧ (new_with_value t d v).number_of_children = 0 ∧
      ((new_with_value t d v).add_child c).is_leaf = false ∧
      ((new_with_value t d v).add_child c).number_of_children = 1) ∧
    (n.is_leaf = true →
      n.number_of_children = 0 ∧ n.get_children = [] ∧
      (n.add_child c).is_leaf ≠ n.is_leaf ∧ (n.add_child c).number_of_children = 1 ∧
      (n.add_child c).get_children = [c]) := by
  refine ⟨rfl, by simp [number_of_children, add_child, get_children],
    by simp [number_of_children, add_child], by simp [is_leaf, add_child],
    get_child_of_neg _ _ c (by simp [add_child]) (by omega), ?_, rfl, rfl, rfl, rfl, ?_, ?_, ?_,
    ?_⟩
  · intro i hi
    have hi1 : i < n.m_children.length := hi
    have h1 : n.m_children[i]? = some n.m_children[i] := List.getElem?_eq_getElem hi1
    have h2 : (n.add_child c).m_children[i]? = some n.m_children[i] := by
      simp only [add_child]
      rw [List.getElem?_append_left hi1, h1]
    exact ⟨n.m_children[i], h1, get_child_of_lt _ i _ h1, get_child_of_lt _ i _ h2⟩
  · intro h p hp
    exact Heap.call_of_deref h p n _ _ hp rfl
  · intro t d
    exact ⟨by simp [is_leaf, add_child], by simp [number_of_children, add_child, new], rfl, rfl⟩
  · intro t d v
    exact ⟨rfl, rfl, by simp [is_leaf, add_child],
      by simp [number_of_children, add_child, new_with_value]⟩
  · intro hleaf
    have hcs : n.m_children = [] := (is_leaf_iff n).mp hleaf
    refine ⟨by simp [number_of_children, hcs], hcs, ?_, by simp [number_of_children, add_child,
      hcs], by simp [get_children, add_child, hcs]⟩
    rw [hleaf]
    simp [is_leaf, add_child]

/-- C14 on the root of the tree of three levels, which has the children
`[2, 3]`, with the new child 9, at which no object is stored; and on a new
node, a leaf, which is no leaf after the call. -/
theorem add_child_appends_witness :
    (∃ ci, (((new (7 : Nat) 0).add_child 2).add_child 3).get_children[1]? = some ci ∧
      (((new (7 : Nat) 0).add_child 2).add_child 3).get_child (1 : Nat) = .ok ci ∧
      ((((new (7 : Nat) 0).add_child 2).add_child 3).add_child 9).get_child (1 : Nat) =
        .ok ci) ∧
    three_level_tree.add_child 1 9 =
      .ok (three_level_tree.store 1 ((((new (7 : Nat) 0).add_child 2).add_child 3).add_child 9)) ∧
    ((new (7 : Nat) 0).number_of_children = 0 ∧ (new (7 : Nat) 0).get_children = [] ∧
      ((new (7 : Nat) 0).add_child 9).is_leaf ≠ (new (7 : Nat) 0).is_leaf ∧
      ((new (7 : Nat) 0).add_child 9).number_of_children = 1 ∧
      ((new (7 : Nat) 0).add_child 9).get_children = [9]) :=
  ⟨(add_child_appends (((new (7 : Nat) 0).add_child 2).add_child 3) 9).2.2.2.2.2.1 1
      (by decide),
    (add_child_appends (((new (7 : Nat) 0).add_child 2).add_child 3) 9).2.2.2.2.2.2.2.2.2.2.1
      three_level_tree 1 rfl,
    (add_child_appends (new (7 : Nat) 0) 9).2.2.2.2.2.2.2.2.2.2.2.2.2 rfl⟩

end TreeStructure

namespace Heap

variable {node_t : Type}

/-- C15. For a pointer `p` to a node `n` whose attribute dictionary satisfies
the invariant (as it does after the constructor and after every call),
`p->add_attribute(a, v)` returns and leaves at `p` the node whose attribute
dictionary is the previous one after `insert(a, v)`; `p->replace_attribute(a,
v)` does the same with `replace(a, v)`, and changes nothing when `a` is
absent.  In both cases level, type, value and children of the node, and every
other object of the heap, are as before. -/
theorem attribute_operations_delegate (h : Heap node_t) (p : Nat) (n : TreeStructure node_t)
    (a v : String) (hp : h.deref p = some n) (hInv : n.m_attributes.Inv) :
    (∃ d1 n1 h1, n.m_attributes.insert a v = .ok d1 ∧ n.add_attribute a v = .ok n1 ∧
      h.add_attribute p a v = .ok h1 ∧ h1.deref p = some n1 ∧
      n1.m_attributes = d1 ∧ d1.Inv ∧
      n1.get_level = n.get_level ∧ n1.get_type = n.get_type ∧ n1.get_value = n.get_value ∧
      n1.get_children = n.get_children ∧ ∀ q, q ≠ p → h1 q = h q) ∧
    (∃ d1 n1 h1, n.m_attributes.replace a v = .ok d1 ∧ n.replace_attribute a v = .ok n1 ∧
      h.replace_attribute p a v = .ok h1 ∧ h1.deref p = some n1 ∧
      n1.m_attributes = d1 ∧ d1.Inv ∧
      n1.get_level = n.get_level ∧ n1.get_type = n.get_type ∧ n1.get_value = n.get_value ∧
      n1.get_children = n.get_children ∧ ∀ q, q ≠ p → h1 q = h q) ∧
    (a ∉ n.m_attributes.keys → n.replace_attribute a v = .ok n) := by
  have hp0 := ne_zero_of_deref hp
  refine ⟨?_, ?_, ?_⟩
  · obtain ⟨d1, h1, hInv1, _⟩ := hInv.insert a v
    have hn1 := TreeStructure.add_attribute_of_insert n a v d1 h1
    exact ⟨d1, _, _, h1, hn1, call_of_deref h p n _ _ hp hn1, deref_store_self h p _ hp0, rfl,
      hInv1, rfl, rfl, rfl, rfl, fun q hq => store_of_ne h p q _ hq⟩
  · obtain ⟨d1, h1, hInv1, _⟩ := hInv.replace a v
    have hn1 := TreeStructure.replace_attribute_of_replace n a v d1 h1
    exact ⟨d1, _, _, h1, hn1, call_of_deref h p n _ _ hp hn1, deref_store_self h p _ hp0, rfl,
      hInv1, rfl, rfl, rfl, rfl, fun q hq => store_of_ne h p q _ hq⟩
  · intro ha
    rw [TreeStructure.replace_attribute_of_replace n a v n.m_attributes
      (Dictionary.replace_of_not_mem _ a v ha)]

/-- C15 on the node at address 2 of the tree of three levels, which has no
attribute yet: `replace_attribute("id", "7")` leaves the node as it is. -/
theorem attribute_operations_delegate_witness :
    ((TreeStructure.new_with_value (8 : Nat) 1 "x").add_child 4).replace_attribute "id" "7" =
      .ok ((TreeStructure.new_with_value (8 : Nat) 1 "x").add_child 4) ∧
    (∃ d1 n1 h1, ((TreeStructure.new_with_value (8 : Nat) 1 "x").add_child 4).m_attributes.insert
        "id" "7" = .ok d1 ∧
      ((TreeStructure.new_with_value (8 : Nat) 1 "x").add_child 4).add_attribute "id" "7" =
        .ok n1 ∧
      three_level_tree.add_attribute 2 "id" "7" = .ok h1 ∧ h1.deref 2 = some n1 ∧
      n1.m_attributes = d1 ∧ d1.Inv ∧
      n1.get_level = ((TreeStructure.new_with_value (8 : Nat) 1 "x").add_child 4).get_level ∧
      n1.get_type = ((TreeStructure.new_with_value (8 : Nat) 1 "x").add_child 4).get_type ∧
      n1.get_value = ((TreeStructure.new_with_value (8 : Nat) 1 "x").add_child 4).get_value ∧
      n1.get_children =
        ((TreeStructure.new_with_value (8 : Nat) 1 "x").add_child 4).get_children ∧
      ∀ q, q ≠ 2 → h1 q = three_level_tree q) :=
  ⟨(attribute_operations_delegate three_level_tree 2
      ((TreeStructure.new_with_value (8 : Nat) 1 "x").add_child 4) "id" "7" rfl
      (by decide)).2.2 (by decide),
    (attribute_operations_delegate three_level_tree 2
      ((TreeStructure.new_with_value (8 : Nat) 1 "x").add_child 4) "id" "7" rfl
      (by decide)).1⟩

end Heap

namespace TreeStructure

variable {node_t : Type}

/-- C18, as written, fails: a node constructed with the value `x` that has
got a child is not a leaf, and `get_value()` returns `x`, not 0. -/
theorem get_value_of_inner_node :
    ((new_with_value (0 : Nat) 0 "x").add_child 1).is_leaf = false ∧
    ((new_with_value (0 : Nat) 0 "x").add_child 1).number_of_children = 1 ∧
    ((new_with_value (0 : Nat) 0 "x").add_child 1).get_value = some "x" ∧
    ((new_with_value (0 : Nat) 0 "x").add_child 1).get_value ≠ none :=
  ⟨by decide, by decide, by decide, by decide⟩

/-- C18, amended. `get_value()` returns the buffer `m_value` of the node:
`add_child` does not change it, so a node constructed with the value `v`
returns the C string of `v` whether it is a leaf or has got children, and a
node constructed without a value returns 0 whether it is a leaf or has got
children. -/
theorem get_value_own_value (n : TreeStructure node_t) :
    n.get_value = n.m_value ∧
    (∀ c : Nat, (n.add_child c).get_value = n.get_value) ∧
    (∀ (t : node_t) (d : Int) (v : String) (cs : List Nat),
      (cs.foldl add_child (new_with_value t d v)).get_children = cs ∧
      (cs.foldl add_child (new_with_value t d v)).get_value = some (c_string v)) ∧
    (∀ (t : node_t) (d : Int) (cs : List Nat),
      (cs.foldl add_child (new t d)).get_children = cs ∧
      (cs.foldl add_child (new t d)).get_value = none) := by
  refine ⟨rfl, fun c => rfl, ?_, ?_⟩
  · intro t d v cs
    exact ⟨by rw [get_children_foldl_add_child]; rfl, by rw [get_value_foldl_add_child]; rfl⟩
  · intro t d cs
    exact ⟨by rw [get_children_foldl_add_child]; rfl, by rw [get_value_foldl_add_child]; rfl⟩

/-- C19, as written, fails: a new node has no children and `is_leaf()` is
true, and after `add_child` it has a child and `is_leaf()` is false. -/
theorem is_leaf_of_new_node :
    (new (0 : Nat) 0).get_children = [] ∧ (new (0 : Nat) 0).is_leaf = true ∧
    ((new (0 : Nat) 0).add_child 1).get_children = [1] ∧
    ((new (0 : Nat) 0).add_child 1).is_leaf = false :=
  ⟨rfl, rfl, rfl, rfl⟩

/-- C19, amended. `is_leaf()` returns true if this node has no children and
false otherwise. -/
theorem is_leaf_iff_no_children (n : TreeStructure node_t) :
    (n.is_leaf = true ↔ n.get_children = []) ∧
    (n.is_leaf = false ↔ n.get_children ≠ []) ∧
    (n.is_leaf = true ↔ n.number_of_children = 0) ∧
    (n.is_leaf = false ↔ n.number_of_children ≥ 1) := by
  have h1 := is_leaf_iff n
  have hlen : n.m_children = [] ↔ n.m_children.length = 0 := List.length_eq_zero.symm
  refine ⟨h1, ?_, ?_, ?_⟩
  · rw [← Bool.not_eq_true, h1]; rfl
  · rw [h1, hlen]; simp only [number_of_children]; omega
  · rw [← Bool.not_eq_true, h1, hlen]; simp only [number_of_children]; omega

end TreeStructure

namespace Heap

variable {node_t : Type}

/-- C16. Let the nodes owned through `root`, found by following the child
pointers to depth `fuel`, be the list `L` without repetition: a tree, in
which no node has been added as a child twice and no node is its own
descendant.  Then `delete root` returns, within the same depth.  Afterwards
no object exists at any address of `L`, and every other address is as before.
No release happens twice; the nodes are released in the order `L`, each once;
with each node of `L` its attribute dictionary is released, and its value
buffer exactly if it has one; nothing else is released; and every child is
released before its parent. -/
theorem destruction_frees_subtree_once (fuel : Nat) (h : Heap node_t) (root : Nat)
    (L : List Nat) (hL : h.owned fuel root = some L) (hn : L.Nodup) :
    ∃ h1 events, h.delete fuel root = some (.ok (h1, events)) ∧
      (∀ q ∈ L, h1 q = none) ∧
      (∀ q, q ∉ L → h1 q = h q) ∧
      events.Nodup ∧
      events.filterMap Event.deleted_node = L ∧
      (∀ q ∈ L, ∃ obj, h q = some obj ∧ Event.node_deleted q ∈ events ∧
        Event.attributes_deleted q ∈ events ∧
        (Event.value_deleted q ∈ events ↔ obj.get_value ≠ none)) ∧
      (∀ e ∈ events, e.node ∈ L) ∧
      (root ≠ 0 → root ∈ L ∧ events.getLast? = some (Event.node_deleted root)) ∧
      (∀ q ∈ L, ∀ obj, h q = some obj → ∀ c ∈ obj.get_children, c ≠ 0 →
        c ∈ L ∧ [Event.node_deleted c, Event.node_deleted q].Sublist events) := by
  have hlive := owned_live fuel h root L hL
  have hlive1 : ∀ q ∈ L, ∃ obj, h q = some obj := fun q hq => (hlive q hq).2
  refine ⟨h.free_all L, h.events_for L, delete_eq fuel h root L hL hn, ?_, ?_,
    nodup_events_for h L hn, filterMap_events_for h L hlive1, ?_,
    fun e he => node_of_mem_events_for h L e he, ?_, ?_⟩
  · intro q hq
    simp [free_all, hq]
  · intro q hq
    simp [free_all, hq]
  · intro q hq
    obtain ⟨obj, ho⟩ := hlive1 q hq
    exact ⟨obj, ho, mem_events_for_of_live h L q obj hq ho⟩
  · intro hr
    refine ⟨owned_self_mem fuel h root L hL hr, ?_⟩
    cases fuel with
    | zero => simp [owned] at hL
    | succ fuel =>
      obtain ⟨obj, l, ho, _, e⟩ := (owned_succ_eq_some fuel h root L hr).mp hL
      subst e
      cases hv : obj.m_value with
      | none => simp [events_for_append, events_for, events_of, ho, own_events, hv]
      | some s => simp [events_for_append, events_for, events_of, ho, own_events, hv]
  · intro q hq obj ho c hc hc0
    have hsub := owned_child_before fuel h root L hL q obj hq ho c hc hc0
    refine ⟨hsub.subset (List.mem_cons_self _ _), ?_⟩
    have := (hsub.map Event.node_deleted).trans (map_node_deleted_sublist h L hlive1)
    simpa using this

/-- C16 on the tree of three levels: the nodes owned through the root at 1
are 4, 2, 3, 1 in post-order, and `delete` releases them in this order. -/
theorem destruction_frees_subtree_once_witness :
    three_level_tree.owned 3 1 = some [4, 2, 3, 1] ∧
    ∃ h1 events, three_level_tree.delete 3 1 = some (.ok (h1, events)) ∧
      h1 1 = none ∧ h1 2 = none ∧ h1 3 = none ∧ h1 4 = none ∧
      events.Nodup ∧
      events.filterMap Event.deleted_node = [4, 2, 3, 1] ∧
      [Event.node_deleted 4, Event.node_deleted 2].Sublist events ∧
      [Event.node_deleted 2, Event.node_deleted 1].Sublist events := by
  refine ⟨rfl, ?_⟩
  obtain ⟨h1, events, hd, hfree, _, hnd, hord, _, _, _, hpost⟩ :=
    destruction_frees_subtree_once 3 three_level_tree 1 [4, 2, 3, 1] rfl (by decide)
  exact ⟨h1, events, hd, hfree 1 (by decide), hfree 2 (by decide), hfree 3 (by decide),
    hfree 4 (by decide), hnd, hord,
    (hpost 2 (by decide) _ rfl 4 (by decide) (by decide)).2,
    (hpost 1 (by decide) _ rfl 2 (by decide) (by decide)).2⟩

end Heap

end custom_structures
